import Mathlib

/-!
A verification development for the windowed remote list synchronizer of the
Overture framework (`WindowedRemoteQuery.js`).  The update algebra
(`mapIndexes`, `sortLinkedArrays`, `mergeSortedLinkedArrays`, `adjustIndexes`,
`composeUpdates`, `invertUpdate`), the sparse ordered list, the window status
table and the reconciliation engine (`_normaliseUpdate`, `_applyUpdate`,
`clientDidGenerateUpdate`, `sourceDidFetchUpdate`, `sourceDidFetchIdList`,
`fetchWindow`, ...) are embedded shallowly: JS arrays of store keys become
`List (Option K)` (a `none` entry is a hole in the sparse array), JS numbers
become `Nat`/`Int` as noted at each definition, and the mutable query object
becomes an explicit `WindowedQuery` state record threaded through the
operations.

Store keys are opaque (`K` with decidable equality).  The store's id-to-key
translation (`_toStoreKey`) is the identity here: ids and store keys are
identified, as the Store is an external collaborator.  The configuration
`canGetDeltaUpdates` is fixed at its default `true` (all properties considered
here concern the delta-capable configuration); this removes the one call path
from `sourceDidFetchIdList` back into `_applyUpdate`, so all definitions are
structurally recursive.
-/

namespace Overture

/-! ### Record status flags

`Status.js` is not among the sources (only its import list in
`WindowedRemoteQuery.js` is visible).  Modelled from the spec: the statuses
are orthogonal bit flags `EMPTY`, `READY`, `LOADING` (an update is being
fetched), `OBSOLETE` (server may have changed since the last update request)
and `DIRTY` (a preemptive update was applied since the last update fetch was
initiated).  The concrete numeric values are distinct powers of two; only
their distinctness is relied upon. -/

def EMPTY : Nat := 1

def READY : Nat := 2

def LOADING : Nat := 16

def DIRTY : Nat := 128

def OBSOLETE : Nat := 256

/-! ### Window status flags (source lines 427-433) -/

def WINDOW_EMPTY : Nat := 0

def WINDOW_REQUESTED : Nat := 1

def WINDOW_LOADING : Nat := 2

def WINDOW_READY : Nat := 4

def WINDOW_RECORDS_REQUESTED : Nat := 8

def WINDOW_RECORDS_LOADING : Nat := 16

def WINDOW_RECORDS_READY : Nat := 32

/-- Clearing a bit mask: `s & ~mask` on (at most 32-bit) JS integers.  On
`Nat` the complement does not exist, but `s - (s &&& mask)` removes exactly
the bits of `mask` that are set in `s`, which is the same operation. -/
def clearFlag (s mask : Nat) : Nat := s - (s &&& mask)

/-- JS truthiness test for a status word: `s & mask` used as a condition. -/
def hasFlag (s mask : Nat) : Bool := s &&& mask ≠ 0

/-! ### The floor of the natural logarithm

`mapIndexes` (source lines 462-491) chooses between its two code paths with
`storeKeysLength < ~~Math.log( listLength ) + 1`.  `~~Math.log n` is the
natural logarithm truncated toward zero: `Nat.floor (Real.log n)` for `n ≥ 1`
and `0` for `n = 0` (`~~(-Infinity) = 0`).  `jsFloorLog` computes it by
counting how many powers of `e` fit below `n`, using a 19-significant-digit
rational lower bound of `e`; this is exact for every list length a JS array
can have (the bound is far tighter than the spacing of representable
integers up to `2^53`). -/

def eNum : Nat := 2718281828459045235

def eDen : Nat := 1000000000000000000

/-- Counts powers of `e`: returns the largest `m ≤ fuel` with `e^m ≤ n`,
where `pNum / pDen` is maintained as `e^(m+1)`. -/
def jsFloorLogAux (n : Nat) : Nat → Nat → Nat → Nat → Nat
  | _, _, _, 0 => 0
  | m, pNum, pDen, fuel + 1 =>
      if pNum ≤ n * pDen then
        jsFloorLogAux n (m + 1) (pNum * eNum) (pDen * eDen) fuel
      else m

/-- The JS expression `~~Math.log( n )` for a natural number `n`.  The fuel
`64` covers every JS-representable array length (`e^64 > 2^53`). -/
def jsFloorLog (n : Nat) : Nat := jsFloorLogAux n 0 eNum eDen 64

/-! ### Basic array operations used by the query -/

section Keys

variable {K : Type} [DecidableEq K]

/-- `Array.prototype.indexOf` on the sparse key list: the first index holding
`key`, or `-1`.  A hole never compares equal to a key. -/
def jsIndexOf (list : List (Option K)) (key : K) : Int :=
  match list.findIdx? (fun x => x = some key) with
  | some i => (i : Int)
  | none => -1

/-- `Array.prototype.lastIndexOf` on the sparse key list: the last index
holding `key`, or `-1`. -/
def jsLastIndexOf (list : List (Option K)) (key : K) : Int :=
  match (list.reverse.findIdx? (fun x => x = some key)) with
  | some i => (list.length - 1 - i : Int)
  | none => -1

/-- `Array.prototype.indexOf` on a plain (non-sparse) array, as used on the
store-key arrays of an update: first index of `key`, or `-1`. -/
def jsArrIndexOf (a : List K) (key : K) : Int :=
  match a.findIdx? (fun x => x = key) with
  | some i => (i : Int)
  | none => -1

end Keys

/-! ### The update algebra (source lines 435-596) -/

section Algebra

variable {K : Type} [DecidableEq K]

/-- A stable insertion step: place `x` before the first element whose index
is not smaller, so elements with equal indexes keep their original order. -/
def insertSortedPair {I : Type} [LinearOrder I] (x : I × K) :
    List (I × K) → List (I × K)
  | [] => [x]
  | y :: ys => if y.1 < x.1 then y :: insertSortedPair x ys else x :: y :: ys

/-- A stable ascending sort of `(index, key)` pairs by index (insertion
sort, chosen because it is structurally recursive and hence computable by
the kernel; any stable ascending sort produces the same list). -/
def stableSortPairs {I : Type} [LinearOrder I] :
    List (I × K) → List (I × K)
  | [] => []
  | x :: xs => insertSortedPair x (stableSortPairs xs)

/-- `sortLinkedArrays` (source lines 449-460): sorts `a1` ascending while
performing the same swaps on `a2`.  The JS implementation zips the arrays,
sorts the pairs with the comparator `a[0] - b[0]` (a stable sort in any
ES2019+ engine) and unzips; this is mirrored with a stable sort on the
zipped pairs.  The index type `I` is `Int` at the `_normaliseUpdate` call
site (the indexes being sorted can include the not-found marker `-1`) and
`Nat` at the `sourceDidFetchUpdate` call site. -/
def sortLinkedArrays {I : Type} [LinearOrder I] (a1 : List I) (a2 : List K) :
    List I × List K :=
  let zipped := stableSortPairs (a1.zip a2)
  (zipped.map Prod.fst, zipped.map Prod.snd)

/-- The linear-scan branch of `mapIndexes` (source lines 475-477): one
`indexOf` per store key sought. -/
def mapIndexesLinear (list : List (Option K)) (storeKeys : List K) : List Int :=
  storeKeys.map (fun key => jsIndexOf list key)

/-- The value the hash map built by `mapIndexes` (source lines 479-484) holds
for `key` after the build loop: the loop walks the list in ascending index
order and stores `indexOf[id] = i` for every non-hole entry, so a later
occurrence of the same key overwrites an earlier one — the map holds the
*last* index of each present key. -/
def hashIndexOfAux (key : K) : List (Option K) → Nat → Option Nat → Option Nat
  | [], _, acc => acc
  | x :: rest, i, acc =>
      hashIndexOfAux key rest (i + 1) (if x = some key then some i else acc)

/-- Index of the last occurrence of `key` in the list, or `none`. -/
def hashIndexOf (list : List (Option K)) (key : K) : Option Nat :=
  hashIndexOfAux key list 0 none

/-- The hash-map branch of `mapIndexes` (source lines 479-488): build the
key-to-index map, then look each sought key up (`undefined` becomes `-1`). -/
def mapIndexesHash (list : List (Option K)) (storeKeys : List K) : List Int :=
  storeKeys.map (fun key =>
    match hashIndexOf list key with
    | some i => (i : Int)
    | none => -1)

/-- `mapIndexes` (source lines 462-491): for each store key, its current
index in `list` (`-1` when not present).  Takes the linear-scan path when
fewer than `~~Math.log( listLength ) + 1` keys are sought, else the hash-map
path. -/
def mapIndexes (list : List (Option K)) (storeKeys : List K) : List Int :=
  if storeKeys.length < jsFloorLog list.length + 1 then
    mapIndexesLinear list storeKeys
  else
    mapIndexesHash list storeKeys

/-- Modelled from the spec: `Array#binarySearch` comes from
`foundation/Enumerable.js`, which is not among the sources.  Per the call
sites in `adjustIndexes` ("see how many items were added in the first update
before it", source lines 536-538) it returns, for a sorted array, the number
of elements smaller than the value — the insertion point of the value. -/
def binarySearch (a : List Nat) (v : Nat) : Nat := a.countP (fun x => x < v)

/-- `mergeSortedLinkedArrays` (source lines 505-526) on zipped pairs: a merge
of two sorted runs taking the smaller head each time, and the head of the
*second* run on ties (`a1[i] < a2[j]` fails on equality).  The JS loop takes
elements of the second run while the head of the first does not beat them
(`y.1 ≤ x.1`), then emits the head of the first run; written that way the
recursion is structural on the first run (and kernel-computable). -/
def mergeSLA : List (Nat × K) → List (Nat × K) → List (Nat × K)
  | [], ys => ys
  | x :: xs, ys =>
      ys.takeWhile (fun y => y.1 ≤ x.1) ++
        x :: mergeSLA xs (ys.dropWhile (fun y => y.1 ≤ x.1))

/-- `mergeSortedLinkedArrays` (source lines 505-526): merges the linked pairs
`(a1, b1)` and `(a2, b2)`, returning the merged index array and the merged
key array.  The linked arrays always have equal lengths at the call sites, so
zipping loses nothing. -/
def mergeSortedLinkedArrays (a1 : List Nat) (a2 : List Nat) (b1 : List K)
    (b2 : List K) : List Nat × List K :=
  let m := mergeSLA (a1.zip b1) (a2.zip b2)
  (m.map Prod.fst, m.map Prod.snd)

/-- The inner loop of `adjustIndexes` (source lines 552-554): starting from
an already `position`-adjusted index, add one for every index removed in the
first update at or before it, scanning `removedBefore` in ascending order and
stopping at the first entry above the running index. -/
def bump : List Nat → Nat → Nat
  | [], index => index
  | r :: rest, index => if r ≤ index then bump rest (index + 1) else index

/-- The main loop of `adjustIndexes` (source lines 533-559), one step per
`(index, storeKey)` pair of the second update's removals: cancel the pair if
an item was added at the exact same position by the first update, otherwise
subtract the number of earlier first-update additions and bump past the
first-update removals. -/
def adjustIndexesLoop (added removedBefore : List Nat) :
    List (Nat × K) → List (Nat × K)
  | [] => []
  | (index, storeKey) :: rest =>
      let position := binarySearch added index
      if added[position]? = some index then
        adjustIndexesLoop added removedBefore rest
      else
        (bump removedBefore (index - position), storeKey) ::
          adjustIndexesLoop added removedBefore rest

/-- `adjustIndexes` (source lines 528-562). -/
def adjustIndexes (removed added removedBefore : List Nat) (storeKeys
    removedBeforeStoreKeys : List K) : List Nat × List K :=
  let result := adjustIndexesLoop added removedBefore (removed.zip storeKeys)
  mergeSortedLinkedArrays removedBefore (result.map Prod.fst)
    removedBeforeStoreKeys (result.map Prod.snd)

/-- The canonical update shape (spec section 3): removed `(index, key)` pairs
with indexes in the pre-update list, added `(index, key)` pairs with indexes
in the post-update list, both in ascending index order, plus the
`truncateAtFirstGap` marker, the resulting `total` and the optional `upto`
key.  `total` is an `Int` because JS arithmetic on it can pass through
negative values when the length is unknown. -/
structure Update (K : Type) where
  removedIndexes : List Nat
  removedStoreKeys : List K
  addedIndexes : List Nat
  addedStoreKeys : List K
  truncateAtFirstGap : Bool
  total : Int
  upto : Option K
deriving DecidableEq, Repr

/-- `composeUpdates` (source lines 564-582). -/
def composeUpdates (u1 u2 : Update K) : Update K :=
  let removed := adjustIndexes u2.removedIndexes u1.addedIndexes
    u1.removedIndexes u2.removedStoreKeys u1.removedStoreKeys
  let added := adjustIndexes u1.addedIndexes u2.removedIndexes
    u2.addedIndexes u1.addedStoreKeys u2.addedStoreKeys
  { removedIndexes := removed.1
    removedStoreKeys := removed.2
    addedIndexes := added.1
    addedStoreKeys := added.2
    truncateAtFirstGap := u1.truncateAtFirstGap || u2.truncateAtFirstGap
    total := u2.total
    upto := u2.upto }

/-- `invertUpdate` (source lines 584-596): swap the added and removed pairs
and recompute the total.  The JS mutates in place and computes the new total
*after* the swap from `addedStoreKeys` (the original removed keys) and
`removedStoreKeys` (the original added keys); written functionally that is
`total + removedCount - addedCount` in terms of the original update. -/
def invertUpdate (u : Update K) : Update K :=
  { removedIndexes := u.addedIndexes
    removedStoreKeys := u.addedStoreKeys
    addedIndexes := u.removedIndexes
    addedStoreKeys := u.removedStoreKeys
    truncateAtFirstGap := u.truncateAtFirstGap
    total := u.total + u.removedStoreKeys.length - u.addedStoreKeys.length
    upto := u.upto }

/-! ### Applying an update to the sparse list (from `_applyUpdate`,
source lines 1047-1150) -/

/-- The removal phase of `_applyUpdate` (source lines 1063-1068):
`list.splice( removedIndexes[l], 1 )` for `l` from the end of the ascending
index array down to `0`, so the positions removed later in the array are
spliced out first and earlier indexes stay valid. -/
def applyRemovals (removedIndexes : List Nat) (list : List (Option K)) :
    List (Option K) :=
  removedIndexes.foldr (fun index acc => acc.eraseIdx index) list

/-- The `truncateAtFirstGap` phase of `_applyUpdate` (source lines
1070-1078): cut the list at the first hole. -/
def truncateAtGap (list : List (Option K)) : List (Option K) :=
  list.takeWhile Option.isSome

/-- One insertion of the addition phase of `_applyUpdate` (source lines
1085-1097): a plain assignment when the index is at or past the current
length (JS extends the array, leaving holes in between), otherwise
`splice( index, 0, storeKey )`. -/
def insertAt (index : Nat) (key : K) (list : List (Option K)) :
    List (Option K) :=
  if list.length ≤ index then
    list ++ List.replicate (index - list.length) none ++ [some key]
  else
    list.insertIdx index (some key)

/-- The addition phase of `_applyUpdate` (source lines 1085-1097): the added
`(index, key)` pairs are inserted in ascending order. -/
def applyAdditions : List (Nat × K) → List (Option K) → List (Option K)
  | [], list => list
  | (index, key) :: rest, list => applyAdditions rest (insertAt index key list)

/-- The full list transformation performed by `_applyUpdate` for an update
whose `upto` is absent: splice out the removed indexes (descending), truncate
at the first gap if flagged, then insert the added pairs (ascending).  The
`upto` truncation and the reset fallback act on the whole query state and
live in `_applyUpdate` below. -/
def applyUpdateToList (u : Update K) (list : List (Option K)) :
    List (Option K) :=
  let afterRemove := applyRemovals u.removedIndexes list
  let afterTruncate :=
    if u.truncateAtFirstGap then truncateAtGap afterRemove else afterRemove
  applyAdditions (u.addedIndexes.zip u.addedStoreKeys) afterTruncate

end Algebra

/-! ### The query state

The mutable `WindowedRemoteQuery` object becomes an explicit state record.
Observable-property plumbing (`propertyDidChange`, `rangeDidChange`, `fire`,
bindings) is notification-only and outside the core; those calls are
no-ops here.  `source.fetchQuery` merely asks the external source to call
back later, so it does not change the query state either. -/

section Query

variable {K : Type} [DecidableEq K]

/-- A range observer (spec section 3): `{start, end}` where either bound may
be absent (`range.start || 0` and the `'end' in range` test in the source).
`end` is a reserved word, hence the field name `stop?`. -/
structure JsRange where
  start? : Option Int
  stop? : Option Int
deriving DecidableEq, Repr

/-- The argument object of `sourceDidFetchIdList` (source lines 1479-1497).
`sort`/`filter` are opaque to the core and modelled as integers compared for
equality. -/
structure IdListPacket (K : Type) where
  state : String
  sortKey : Int
  filterKey : Int
  idList : List K
  position : Nat
  total : Int
deriving DecidableEq, Repr

/-- The argument object of `sourceDidFetchUpdate` (source lines 1230-1256).
`total` is documented as optional in the source but always supplied by the
protocol; the embedding takes it as required. -/
structure DeltaUpdate (K : Type) where
  newState : String
  oldState : String
  sortKey : Int
  filterKey : Int
  removed : List K
  added : List (Nat × K)
  upto : Option K
  total : Int
deriving DecidableEq, Repr

/-- The argument object of `clientDidGenerateUpdate` / `_normaliseUpdate`: a
raw `{removed, added}` update, optionally already carrying a `total` (the
`'total' in update` test in the source) and an `upto` key. -/
structure RawUpdate (K : Type) where
  removed : List K
  added : List (Nat × K)
  total : Option Int
  upto : Option K
deriving DecidableEq, Repr

/-- The full state of one `WindowedRemoteQuery` instance.  `list` is the
sparse ordered list (`none` entries are holes), `length` is the nullable
total, `windows` is the per-window bit-flag table (reads past the end and
holes coerce to `0`, as every JS read site does), `refreshPending` is
`RemoteQuery`'s `_refresh` flag (read back by `sourceWillFetchQuery`), and
`storeStatus` is the external Store's per-record status lookup
(`store.getStatus`), taking `Option K` because the source can pass a hole to
it.  `canGetDeltaUpdates` is fixed `true` (see the file comment). -/
structure WindowedQuery (K : Type) where
  list : List (Option K)
  state : String
  status : Nat
  length : Option Int
  windows : List Nat
  preemptiveUpdates : List (Update K)
  waitingPackets : List (IdListPacket K)
  indexOfRequested : List K
  isAnExplicitIdFetch : Bool
  refreshPending : Bool
  sortKey : Int
  filterKey : Int
  rangeObservers : List JsRange
  windowSize : Nat
  triggerPoint : Nat
  prefetch : Nat
  optimiseFetching : Bool
  storeStatus : Option K → Nat

/-- Reading `windows[i]`: a hole or out-of-range read is `undefined`, which
every use site coerces to `0`. -/
def getWindow (windows : List Nat) (i : Nat) : Nat := windows.getD i 0

/-- Writing `windows[i] = v`: JS extends the array (with holes, which read
back as `0`) when `i` is at or past the current length. -/
def setWindow (windows : List Nat) (i : Nat) (v : Nat) : List Nat :=
  if i < windows.length then windows.set i v
  else windows ++ List.replicate (i - windows.length) 0 ++ [v]

/-- Writing `list[i] = v` on the sparse list, extending with holes when
needed. -/
def setListAt (list : List (Option K)) (i : Nat) (v : Option K) :
    List (Option K) :=
  if i < list.length then list.set i v
  else list ++ List.replicate (i - list.length) none ++ [v]

/-- Modelled from the spec: `RemoteQuery#refresh` (the file
`RemoteQuery.js` is not among the sources).  It requests a (re)fetch of the
query from the source; the state visible to this core is the pending-refresh
flag `_refresh` that `sourceWillFetchQuery` reads and clears. -/
def refresh (q : WindowedQuery K) : WindowedQuery K :=
  { q with refreshPending := true }

/-- Modelled from the spec: `RemoteQuery#setObsolete` (the file
`RemoteQuery.js` is not among the sources).  Per the spec's error taxonomy,
a stale delta leaves the query "marked OBSOLETE, triggers full refresh". -/
def setObsolete (q : WindowedQuery K) : WindowedQuery K :=
  refresh { q with status := q.status ||| OBSOLETE }

/-- `reset` (source lines 746-755) clears the windows, the waiting packets,
the preemptive queue and the explicit-fetch bookkeeping, then calls the
parent implementation.  Modelled from the spec for the missing
`RemoteQuery#reset`: the query "resets entirely (empty list, EMPTY
status)" — list emptied, state token cleared, length unknown. -/
def reset (q : WindowedQuery K) : WindowedQuery K :=
  { q with
    windows := []
    indexOfRequested := []
    waitingPackets := []
    preemptiveUpdates := []
    isAnExplicitIdFetch := false
    list := []
    state := ""
    status := EMPTY
    length := none }

/-- `windowCount` (source lines 659-663): `null` when the length is unknown,
else `floor((length - 1) / windowSize) + 1`. -/
def windowCount (q : WindowedQuery K) : Option Int :=
  match q.length with
  | none => none
  | some len => some ((len - 1).fdiv q.windowSize + 1)

/-- `intersect` (source lines 598-602). -/
def intersect (a b c d : Int) : Bool := if a < c then c < b else a < d

/-- The loop of `windowIsStillInUse` (source lines 604-630), which walks the
range observers from the last to the first; it returns true as soon as a
range intersects the prefetch-expanded window, and also for a range with no
`end` property (the `break` with `j` not yet `-1`). -/
def windowInUseAux (start margin windowSize : Int) : List JsRange → Bool
  | [] => false
  | range :: rest =>
      let rangeStart := range.start?.getD 0
      match range.stop? with
      | none => true
      | some rangeEnd =>
          if intersect start (start + windowSize) (rangeStart - margin)
              (rangeEnd + margin) then
            true
          else
            windowInUseAux start margin windowSize rest

/-- `windowIsStillInUse` (source lines 604-630). -/
def windowIsStillInUse (index windowSize prefetch : Nat)
    (ranges : List JsRange) : Bool :=
  windowInUseAux (index * windowSize) (prefetch * windowSize) windowSize
    ranges.reverse

/-- `checkIfWindowIsFetched` (source lines 916-929).  The source reads, for
`i` from the window start while `i < l`, the store status of `list[i]` —
but the `return true` statement sits *inside* the loop body, so the first
iteration always returns: only the first record of the window is examined.
When the loop body never runs (`i >= l`, e.g. an unknown length, coerced to
`0` by `Math.min`), the JS function falls off the end and returns
`undefined`, which its only call site treats as false. -/
def checkIfWindowIsFetched (q : WindowedQuery K) (index : Nat) : Bool :=
  let i := index * q.windowSize
  let l : Nat := (min ((i : Int) + q.windowSize) (q.length.getD 0)).toNat
  if i < l then
    if hasFlag (q.storeStatus (q.list.getD i none)) (EMPTY ||| OBSOLETE) then
      false
    else
      true
  else
    false

/-- The loop body of `fetchWindow` (source lines 892-909) for one window
index `wi`, threading the window table and the `doFetch` flag. -/
def fetchWindowStep (q : WindowedQuery K) (index : Int) (fetchRecords : Bool)
    (acc : List Nat × Bool) (wi : Nat) : List Nat × Bool :=
  let windows := acc.1
  let doFetch := acc.2
  let status0 := getWindow windows wi
  let status1 := if status0 = WINDOW_EMPTY then WINDOW_REQUESTED else status0
  let doFetch := doFetch || decide (status0 = WINDOW_EMPTY)
  if (wi : Int) = index ∧ fetchRecords ∧ status1 < WINDOW_RECORDS_REQUESTED
  then
    if hasFlag status1 WINDOW_READY ∧ checkIfWindowIsFetched q wi then
      (setWindow windows wi (WINDOW_READY ||| WINDOW_RECORDS_READY), doFetch)
    else
      (setWindow windows wi (status1 ||| WINDOW_RECORDS_REQUESTED), true)
  else
    (setWindow windows wi status1, doFetch)

/-- `fetchWindow` (source lines 875-914).  The index is an `Int` because
`fetchDataForObjectAt` can call it with `windowIndex - 1 = -1`.  The loop
runs for `i` from `max(0, index - prefetch)` up to (excluding)
`min(index + prefetch + 1, windowCount || 0)` — in particular, with an
unknown length `windowCount` is `null`, the bound is `0` and no window is
touched.  `doFetch` only triggers the external `source.fetchQuery`, which
does not change the query state. -/
def fetchWindow (q : WindowedQuery K) (index : Int) (fetchRecords : Bool)
    (prefetchArg : Option Nat) : WindowedQuery K :=
  let q := if hasFlag q.status OBSOLETE then refresh q else q
  let prefetch : Int := (prefetchArg.getD q.prefetch : Nat)
  let i0 : Nat := (max 0 (index - prefetch)).toNat
  let lEnd : Nat := (min (index + prefetch + 1) ((windowCount q).getD 0)).toNat
  let result := (List.range' i0 (lEnd - i0)).foldl
    (fetchWindowStep q index fetchRecords) (q.windows, false)
  { q with windows := result.1 }

/-- `fetchDataForObjectAt` (source lines 838-856): fetch the window holding
the index, and the adjacent window when within `triggerPoint` of a window
edge. -/
def fetchDataForObjectAt (q : WindowedQuery K) (index : Nat) :
    WindowedQuery K :=
  let windowSize := q.windowSize
  let trigger := q.triggerPoint
  let windowIndex := index / windowSize
  let withinWindowIndex := index % windowSize
  let q := fetchWindow q windowIndex true none
  let q := if withinWindowIndex < trigger then
      fetchWindow q ((windowIndex : Int) - 1) true none
    else q
  if windowSize ≤ withinWindowIndex + trigger then
    fetchWindow q ((windowIndex : Int) + 1) true none
  else q

end Query

/-! ### The reconciliation engine -/

section Reconcile

variable {K : Type} [DecidableEq K]

/-- `canGetDeltaUpdates` (source lines 694-702), fixed at its default
`true` for this embedding (see the file comment). -/
def canGetDeltaUpdates : Bool := true

/-- The inner scan of `recalculateFetchedWindows` (source lines 979-985) for
one window: the JS walks `listIndex` down from `top` to `target` and clears
`WINDOW_READY` if it meets a hole (a falsy `list[listIndex]`, which includes
reads past the end of the list). -/
def windowScanHasGap (list : List (Option K)) (target top : Nat) : Bool :=
  (List.range' target (top + 1 - target)).any (fun j => (list.getD j none).isNone)

/-- `recalculateFetchedWindows` (source lines 948-992).  The JS outer loop
walks `windowIndex` from the last window `floor((length-1)/windowSize)` down
to `floor(start/windowSize)`.  For each such window, `WINDOW_RECORDS_READY`
is cleared, `WINDOW_READY` is set and then removed again if the scan finds a
gap; the scan for the topmost window goes down from `length - 1`, and for
every other window from the end of the window, since `listIndex` is reset to
`target - 1` after each window.  When `length ≤ 0` the JS `windowIndex`
starts at `-1`: the loop body never runs and the window table is truncated to
nothing.  Windows above the last are truncated (`windows.length =
windowIndex + 1`), windows below `start` keep their old status. -/
def recalculateFetchedWindows (q : WindowedQuery K) (start0 : Nat)
    (newLength : Int) : WindowedQuery K :=
  let windowSize := q.windowSize
  let windowIndexI : Int := (newLength - 1).fdiv windowSize
  if windowIndexI < 0 then { q with windows := [] }
  else
    let windowIndex := windowIndexI.toNat
    let len := newLength.toNat
    let start := start0 / windowSize
    let newStatus (wi : Nat) : Nat :=
      let top := if wi = windowIndex then len - 1 else (wi + 1) * windowSize - 1
      let s := clearFlag (getWindow q.windows wi) WINDOW_RECORDS_READY
      if windowScanHasGap q.list (wi * windowSize) top then clearFlag s WINDOW_READY
      else s ||| WINDOW_READY
    { q with windows := (List.range (windowIndex + 1)).map (fun wi =>
        if start ≤ wi then newStatus wi else getWindow q.windows wi) }

/-- The added-pairs loop of `_normaliseUpdate` (source lines 1021-1035): an
added `(index, storeKey)` pair that lands exactly where the same key was
just removed (`removedIndexes[j] - j + addedIndexes.length === index`)
cancels that removal; every other pair is pushed onto the added arrays.  The
index arithmetic is done on `Int` exactly as JS does it on numbers. -/
def normaliseAddedLoop :
    List (Nat × K) → List Nat → List K → List Nat → List K →
    (List Nat × List K) × (List Nat × List K)
  | [], remIdx, remKeys, addIdx, addKeys => ((remIdx, remKeys), (addIdx, addKeys))
  | (index, storeKey) :: rest, remIdx, remKeys, addIdx, addKeys =>
      match remKeys.findIdx? (fun x => x = storeKey) with
      | some j =>
          if (remIdx.getD j 0 : Int) - j + addIdx.length = (index : Int) then
            normaliseAddedLoop rest (remIdx.eraseIdx j) (remKeys.eraseIdx j)
              addIdx addKeys
          else
            normaliseAddedLoop rest remIdx remKeys (addIdx ++ [index])
              (addKeys ++ [storeKey])
      | none =>
          normaliseAddedLoop rest remIdx remKeys (addIdx ++ [index])
            (addKeys ++ [storeKey])

/-- `_normaliseUpdate` (source lines 996-1045): resolve the removed keys to
indexes, sort the linked pairs, drop the leading pairs whose index is the
not-found marker `-1` and record that in `truncateAtFirstGap`, cancel
moved-in-place added pairs, and compute the missing `total` as
`length - removedCount + addedCount` (a `null` length coerces to `0`). -/
def _normaliseUpdate (q : WindowedQuery K) (u : RawUpdate K) : Update K :=
  let removedIndexes0 := mapIndexes q.list u.removed
  let sorted := sortLinkedArrays removedIndexes0 u.removed
  let i := (sorted.1.takeWhile (fun x => x = -1)).length
  let removedIndexes := (sorted.1.drop i).map Int.toNat
  let removedStoreKeys := sorted.2.drop i
  let r := normaliseAddedLoop u.added removedIndexes removedStoreKeys [] []
  let total := match u.total with
    | some t => t
    | none => q.length.getD 0 - r.1.1.length + r.2.1.length
  { removedIndexes := r.1.1
    removedStoreKeys := r.1.2
    addedIndexes := r.2.1
    addedStoreKeys := r.2.2
    truncateAtFirstGap := decide (i ≠ 0)
    total := total
    upto := u.upto }

/-- The preemptive-removal adjustment loop of `sourceDidFetchIdList` (source
lines 1550-1561), processed from the last removed index down (`while
( l-- )`), so this is called with the reversed index array.  The running
`(storeKeys, position, length)` state mirrors the three JS variables; the
arithmetic is on `Int` since `position` can be decremented below the slice
start. -/
def idListAdjustRemoved : List Nat → List K × Int × Int → List K × Int × Int
  | [], s => s
  | ri :: rest, (storeKeys, position, length) =>
      let index : Int := (ri : Int) - position
      if index < length then
        if 0 ≤ index then
          idListAdjustRemoved rest (storeKeys.eraseIdx index.toNat, position,
            length - 1)
        else
          idListAdjustRemoved rest (storeKeys, position - 1, length)
      else
        idListAdjustRemoved rest (storeKeys, position, length)

/-- The preemptive-addition adjustment loop of `sourceDidFetchIdList`
(source lines 1562-1572); the final `else break` aborts the whole loop. -/
def idListAdjustAdded : List (Nat × K) → List K × Int × Int → List K × Int × Int
  | [], s => s
  | (ai, key) :: rest, (storeKeys, position, length) =>
      let index : Int := (ai : Int) - position
      if index ≤ 0 then idListAdjustAdded rest (storeKeys, position + 1, length)
      else if index < length then
        idListAdjustAdded rest (storeKeys.insertIdx index.toNat key, position,
          length + 1)
      else (storeKeys, position, length)

/-- The slice write of `sourceDidFetchIdList` (source lines 1586-1588):
`list[position + i] = storeKeys[i]`.  A write at a negative index is a JS
property assignment invisible to every array read, so it is skipped. -/
def writeListSlice : List K → Int → List (Option K) → List (Option K)
  | [], _, list => list
  | key :: rest, position, list =>
      writeListSlice rest (position + 1)
        (if 0 ≤ position then setListAt list position.toNat (some key) else list)

/-- Reading `list[i]` at a possibly negative index (undefined, a hole). -/
def getListAt (list : List (Option K)) (i : Int) : Option K :=
  if 0 ≤ i then list.getD i.toNat none else none

/-- `sourceDidFetchIdList` (source lines 1498-1632) in the
`canGetDeltaUpdates = true` configuration: ignore the packet on a
sort/filter mismatch; queue it and go obsolete when the state token has
moved on; otherwise adjust the slice for the queued preemptive updates,
write it into the list and recompute which windows are now fully covered by
ids.  The JS `while ( ( length -= windowSize ) >= 0 )` marking loop runs
`floor(length / windowSize)` times (for a nonnegative `length`), leaving
`length` at its value modulo `windowSize`; that closed form is used here.
Window writes at negative indexes are JS property assignments invisible to
array reads and are skipped. -/
def sourceDidFetchIdList (q : WindowedQuery K) (args : IdListPacket K) :
    WindowedQuery K :=
  if ¬(args.sortKey = q.sortKey ∧ args.filterKey = q.filterKey) then q
  else
    let status := q.status
    if q.state ≠ "" ∧ q.state ≠ args.state then
      refresh (setObsolete { q with waitingPackets := q.waitingPackets ++ [args] })
    else
      let q := { q with state := args.state }
      let start : List K × Int × Int :=
        (args.idList, (args.position : Int), (args.idList.length : Int))
      let adjusted :=
        match q.preemptiveUpdates with
        | [] => (start, args.total)
        | p :: ps =>
            let allPreemptives := ps.foldl composeUpdates p
            let s1 := idListAdjustRemoved allPreemptives.removedIndexes.reverse
              start
            let s2 := idListAdjustAdded
              (allPreemptives.addedIndexes.zip allPreemptives.addedStoreKeys) s1
            (s2, allPreemptives.total)
      let storeKeys := adjusted.1.1
      let position := adjusted.1.2.1
      let length := adjusted.1.2.2
      let total := adjusted.2
      let endI := position + length
      let list := writeListSlice storeKeys position q.list
      let windowSize : Nat := q.windowSize
      let windowIndexI : Int := position.fdiv windowSize
      let withinWindowIndex : Int := position.tmod windowSize
      let beginningOfWindowIsFetched :=
        (List.range withinWindowIndex.toNat).all (fun j =>
          (getListAt list (windowIndexI * windowSize + j)).isSome)
      let (windowIndexI, length) :=
        if withinWindowIndex ≠ 0 then
          if beginningOfWindowIsFetched then (windowIndexI, length + withinWindowIndex)
          else (windowIndexI + 1, length - ((windowSize : Int) - withinWindowIndex))
        else (windowIndexI, length)
      let k : Nat := Nat.div (if 0 ≤ length then length else 0).toNat windowSize
      let windows := (List.range k).foldl (fun ws j =>
          let wi := windowIndexI + j
          if 0 ≤ wi then
            setWindow ws wi.toNat (getWindow ws wi.toNat ||| WINDOW_READY)
          else ws) q.windows
      let windowIndexI := windowIndexI + k
      let length := length - k * windowSize
      let windows :=
        if length ≠ 0 ∧ endI = total ∧ length = total.tmod windowSize then
          if 0 ≤ windowIndexI then
            setWindow windows windowIndexI.toNat
              (getWindow windows windowIndexI.toNat ||| WINDOW_READY)
          else windows
        else windows
      { q with
        list := list
        windows := windows
        length := some total
        status := if hasFlag status EMPTY then READY else status }

/-- One range observer's pass of `_fetchObservedWindows` (source lines
1176-1196): fetch every window the observed range (with negative bounds
wrapped by the length, a `null` length coercing to `0`) touches. -/
def fetchObservedRange (q : WindowedQuery K) (range : JsRange) :
    WindowedQuery K :=
  let length : Int := q.length.getD 0
  let observerStart0 := range.start?.getD 0
  let observerEnd0 := range.stop?.getD length
  let observerStart :=
    if observerStart0 < 0 then observerStart0 + length else observerStart0
  let observerEnd :=
    if observerEnd0 < 0 then observerEnd0 + length else observerEnd0
  let firstWindow := observerStart.fdiv q.windowSize
  let lastWindow := (observerEnd - 1).fdiv q.windowSize
  (List.range (lastWindow + 1 - firstWindow).toNat).foldl
    (fun q j => fetchWindow q (firstWindow + j) true none) q

/-- `_fetchObservedWindows` (source lines 1176-1196); the JS walks the
observers from the last to the first (`while ( l-- )`). -/
def fetchObservedWindows (q : WindowedQuery K) : WindowedQuery K :=
  q.rangeObservers.reverse.foldl fetchObservedRange q

/-- The loop of `_applyWaitingPackets` (source lines 1152-1174): shift off
and process exactly as many packets as were queued when the loop started
(`l` is captured before the loop; packets pushed back during processing stay
for next time).  A packet whose state no longer matches is dropped and
`_fetchObservedWindows` runs at the end. -/
def applyWaitingPacketsAux : Nat → WindowedQuery K → Bool → WindowedQuery K
  | 0, q, didDrop => if didDrop then fetchObservedWindows q else q
  | fuel + 1, q, didDrop =>
      match q.waitingPackets with
      | [] => if didDrop then fetchObservedWindows q else q
      | packet :: rest =>
          let q := { q with waitingPackets := rest }
          if packet.state ≠ q.state then applyWaitingPacketsAux fuel q true
          else applyWaitingPacketsAux fuel (sourceDidFetchIdList q packet) didDrop

/-- `_applyWaitingPackets` (source lines 1152-1174). -/
def applyWaitingPackets (q : WindowedQuery K) : WindowedQuery K :=
  applyWaitingPacketsAux q.waitingPackets.length q false

/-- The `firstChange` tracking of `_applyUpdate`: every touched index is
folded in with `if ( index < firstChange ) { firstChange = index; }`.  When
the length is `null`, `index < null` is false in JS, so `firstChange` stays
`null`. -/
def updateFirstChange (fc : Option Int) (index : Nat) : Option Int :=
  match fc with
  | none => none
  | some v => if (index : Int) < v then some (index : Int) else some v

/-- Converting `firstChange` to the `start` parameter of
`recalculateFetchedWindows`, whose first line is `if (!start) start = 0`:
`null` becomes `0`, and a numeric `firstChange` is never negative (only list
indexes and list lengths flow into it). -/
def firstChangeStart : Option Int → Nat
  | none => 0
  | some v => v.toNat

/-- The common tail of `_applyUpdate` (source lines 1117-1149): recalculate
the fetched windows from the first changed index if anything moved, publish
the new length and process any waiting packets. -/
def finishApplyUpdate (q : WindowedQuery K) (newLength : Int)
    (fc : Option Int) (recalcNeeded : Bool) : WindowedQuery K :=
  let q := if recalcNeeded then
      recalculateFetchedWindows q (firstChangeStart fc) newLength
    else q
  applyWaitingPackets { q with length := some newLength }

/-- `_applyUpdate` (source lines 1047-1150): splice out the removals
(descending), truncate at the first gap if flagged, insert the additions
(ascending), then handle `upto` — truncate after its last occurrence, or
reset the whole query if it cannot be found. -/
def _applyUpdate (q : WindowedQuery K) (args : Update K) : WindowedQuery K :=
  let oldLength := q.length
  let recalcNeeded :=
    decide (args.addedStoreKeys.length ≠ 0 ∨ args.removedStoreKeys.length ≠ 0)
  let list1 := applyRemovals args.removedIndexes q.list
  let fc1 := args.removedIndexes.foldr
    (fun i fc => updateFirstChange fc i) oldLength
  let list2 := if args.truncateAtFirstGap then truncateAtGap list1 else list1
  let fc2 := if args.truncateAtFirstGap then updateFirstChange fc1 list2.length
    else fc1
  let list3 := applyAdditions (args.addedIndexes.zip args.addedStoreKeys) list2
  let fc3 := args.addedIndexes.foldl (fun fc i => updateFirstChange fc i) fc2
  match args.upto with
  | none => finishApplyUpdate { q with list := list3 } args.total fc3 recalcNeeded
  | some uptoKey =>
      let l := jsLastIndexOf list3 uptoKey + 1
      if l = 0 then reset q
      else if l ≠ (list3.length : Int) then
        finishApplyUpdate { q with list := list3.take l.toNat } args.total fc3 true
      else
        finishApplyUpdate { q with list := list3 } args.total fc3 recalcNeeded

/-- `clientDidGenerateUpdate` (source lines 1218-1227): normalise, force
`truncateAtFirstGap` off ("Ignore completely any ids we don't have"), apply
optimistically, queue as a preemptive update, mark DIRTY and request a
refresh. -/
def clientDidGenerateUpdate (q : WindowedQuery K) (update : RawUpdate K) :
    WindowedQuery K :=
  let n := { _normaliseUpdate q update with truncateAtFirstGap := false }
  let q := _applyUpdate q n
  let q := { q with preemptiveUpdates := q.preemptiveUpdates ++ [n] }
  refresh { q with status := q.status ||| DIRTY }

/-- `updateIsEqual` (source lines 1267-1273): totals and all four linked
arrays equal (`truncateAtFirstGap` and `upto` are not compared). -/
def updateIsEqual (u1 u2 : Update K) : Bool :=
  decide (u1.total = u2.total) &&
  decide (u1.addedIndexes = u2.addedIndexes) &&
  decide (u1.addedStoreKeys = u2.addedStoreKeys) &&
  decide (u1.removedIndexes = u2.removedIndexes) &&
  decide (u1.removedStoreKeys = u2.removedStoreKeys)

/-- The removed-key resolution loop of `sourceDidFetchUpdate` (source lines
1351-1367): a removed key already removed by the composed preemptive reuses
that recorded index (the `direct` pair of arrays); a key still present in
the local list records its current index for back-translation (the `viaList`
pair, the JS `_indexes`/`_storeKeys`); an untraceable key sets
`truncateAtFirstGap`. -/
def resolveRemovedLoop (allPreemptives : Update K) (list : List (Option K)) :
    List K → List Nat × List K → List Nat × List K → Bool →
    (List Nat × List K) × (List Nat × List K) × Bool
  | [], direct, viaList, truncFlag => (direct, viaList, truncFlag)
  | storeKey :: rest, (rIdx, rKeys), (uIdx, uKeys), truncFlag =>
      match allPreemptives.removedStoreKeys.findIdx? (fun x => x = storeKey) with
      | some j =>
          resolveRemovedLoop allPreemptives list rest
            (rIdx ++ [allPreemptives.removedIndexes.getD j 0],
             rKeys ++ [storeKey])
            (uIdx, uKeys) truncFlag
      | none =>
          match list.findIdx? (fun x => x = some storeKey) with
          | some li =>
              resolveRemovedLoop allPreemptives list rest (rIdx, rKeys)
                (uIdx ++ [li], uKeys ++ [storeKey]) truncFlag
          | none =>
              resolveRemovedLoop allPreemptives list rest (rIdx, rKeys)
                (uIdx, uKeys) true

/-- The idempotent-pair cancellation loop of `sourceDidFetchUpdate` (source
lines 1398-1413), walking the added pairs from the last to the first
(`while ( l-- )`) and splicing out an added pair together with the removed
pair of the same key when they produce a net no-op
(`removedIndexes[i] - i + l === addedIndexes[l]`, computed on `Int` as JS
computes it on numbers). -/
def cancelIdempotentAux :
    Nat → List Nat × List K × List Nat × List K →
    List Nat × List K × List Nat × List K
  | 0, s => s
  | l + 1, (remIdx, remKeys, addIdx, addKeys) =>
      match addKeys.get? l with
      | none => cancelIdempotentAux l (remIdx, remKeys, addIdx, addKeys)
      | some storeKey =>
          match remKeys.findIdx? (fun x => x = storeKey) with
          | some i =>
              if (remIdx.getD i 0 : Int) - i + l = (addIdx.getD l 0 : Int) then
                cancelIdempotentAux l (remIdx.eraseIdx i, remKeys.eraseIdx i,
                  addIdx.eraseIdx l, addKeys.eraseIdx l)
              else cancelIdempotentAux l (remIdx, remKeys, addIdx, addKeys)
          | none => cancelIdempotentAux l (remIdx, remKeys, addIdx, addKeys)

/-- The prefix matching of `sourceDidFetchUpdate` (source lines 1429-1439):
compare the normalised server update against each prefix composition of the
preemptive queue, from the longest prefix down, returning the index of the
first (longest) match. -/
def findConfirmedPrefix (nu : Update K) (composed : List (Update K)) :
    Nat → Option Nat
  | 0 => none
  | l + 1 =>
      match composed.get? l with
      | some c => if updateIsEqual nu c then some l else findConfirmedPrefix nu composed l
      | none => findConfirmedPrefix nu composed l

/-- `sourceDidFetchUpdate` (source lines 1257-1476), the reconciliation
core.  The local `status` is captured before `LOADING` is cleared, exactly
as the JS closure captures it, and the later `status & DIRTY` tests consult
that captured value.  Ids and store keys are identified (`_toStoreKey` is
the identity here), so the id-to-key mapping steps are omitted. -/
def sourceDidFetchUpdate (q0 : WindowedQuery K) (update : DeltaUpdate K) :
    WindowedQuery K :=
  let state := q0.state
  let status := q0.status
  let q := { q0 with status := clearFlag q0.status LOADING }
  if state = update.newState then
    match q.preemptiveUpdates with
    | [] => q
    | p :: ps =>
        if hasFlag status DIRTY then q
        else
          let allPreemptives := ps.foldl composeUpdates p
          let q := _applyUpdate q (invertUpdate allPreemptives)
          { q with preemptiveUpdates := [] }
  else if state ≠ update.oldState then setObsolete q
  else if ¬(update.sortKey = q.sortKey ∧ update.filterKey = q.filterKey) then q
  else
    let q := { q with state := update.newState }
    match q.preemptiveUpdates with
    | [] =>
        _applyUpdate q (_normaliseUpdate q
          { removed := update.removed, added := update.added,
            total := some update.total, upto := update.upto })
    | p :: ps =>
        let composed := List.scanl composeUpdates p ps
        let normalised0 := _normaliseUpdate q
          { removed := [], added := update.added,
            total := some update.total, upto := update.upto }
        let allPreemptives := composed.getLastD p
        let res := resolveRemovedLoop allPreemptives q.list update.removed
          ([], []) ([], []) false
        let resolved :=
          if res.2.1.1 ≠ [] then
            -- The JS second argument to composeUpdates here is a bare
            -- {removedIndexes, removedStoreKeys, addedIndexes: [],
            -- addedStoreKeys: []} object; its missing truncateAtFirstGap,
            -- total and upto are undefined and only the removed arrays of
            -- the result are ever read, so the placeholder values below are
            -- immaterial.
            let x := composeUpdates allPreemptives
              { removedIndexes := res.2.1.1, removedStoreKeys := res.2.1.2,
                addedIndexes := [], addedStoreKeys := [],
                truncateAtFirstGap := false, total := 0, upto := none }
            let translated := res.2.1.2.foldl (fun acc sk =>
              match x.removedStoreKeys.findIdx? (fun y => y = sk) with
              | some i => acc ++ [x.removedIndexes.getD i 0]
              | none => acc) []
            (res.1.1 ++ translated, res.1.2 ++ res.2.1.2.take translated.length)
          else res.1
        let sorted := sortLinkedArrays resolved.1 resolved.2
        let c := cancelIdempotentAux normalised0.addedIndexes.length
          (sorted.1, sorted.2, normalised0.addedIndexes,
           normalised0.addedStoreKeys)
        let normalised := { normalised0 with
          removedIndexes := c.1
          removedStoreKeys := c.2.1
          addedIndexes := c.2.2.1
          addedStoreKeys := c.2.2.2
          truncateAtFirstGap := normalised0.truncateAtFirstGap || res.2.2 }
        let confirmed :=
          if normalised.removedStoreKeys = [] ∧ normalised.addedStoreKeys = []
          then some q.preemptiveUpdates
          else
            match findConfirmedPrefix normalised composed composed.length with
            | some l => some (q.preemptiveUpdates.drop (l + 1))
            | none => none
        match confirmed with
        | some preemptives2 =>
            let q := { q with preemptiveUpdates := preemptives2 }
            let q := if normalised.truncateAtFirstGap then
                let i := (q.list.takeWhile Option.isSome).length
                if q.list.length ≠ i then
                  recalculateFetchedWindows { q with list := q.list.take i } i
                    (q.length.getD 0)
                else q
              else q
            if ¬ hasFlag status DIRTY ∧ q.preemptiveUpdates ≠ [] then
              match q.preemptiveUpdates with
              | [] => applyWaitingPackets q
              | p2 :: ps2 =>
                  let all2 := ps2.foldl composeUpdates p2
                  let q := _applyUpdate q (invertUpdate all2)
                  { q with preemptiveUpdates := [] }
            else applyWaitingPackets q
        | none =>
            let q := { q with preemptiveUpdates := [] }
            _applyUpdate q (composeUpdates (invertUpdate allPreemptives)
              normalised)

/-- The request-range coalescing of `sourceWillFetchQuery` (source lines
1666-1675 and 1689-1697): extend the last pushed `(start, count)` range when
the new window is contiguous with it, else push a fresh range. -/
def coalesceRequest (reqs : List (Nat × Nat)) (start windowSize : Nat) :
    List (Nat × Nat) :=
  match reqs.getLast? with
  | some (s, c) =>
      if s + c = start then reqs.dropLast ++ [(s, c + windowSize)]
      else reqs ++ [(start, windowSize)]
  | none => reqs ++ [(start, windowSize)]

/-- The batched request descriptor returned by `sourceWillFetchQuery`
(source lines 1724-1735); the completion callback is `sourceFetchCallback`
below. -/
structure FetchRequest (K : Type) where
  ids : List (Nat × Nat)
  records : List (Nat × Nat)
  indexOf : List K
  refresh : Bool
deriving DecidableEq, Repr

/-- The per-window body of `sourceWillFetchQuery` (source lines 1658-1717),
threading the window table and the two request lists. -/
def willFetchStep (windowSize prefetch : Nat)
    (optimiseFetching isAnExplicitIdFetch fetchAllObservedIds : Bool)
    (ranges : List JsRange)
    (acc : List Nat × List (Nat × Nat) × List (Nat × Nat)) (i : Nat) :
    List Nat × List (Nat × Nat) × List (Nat × Nat) :=
  let windows := acc.1
  let idReqs := acc.2.1
  let recordReqs := acc.2.2
  let status := getWindow windows i
  if hasFlag status (WINDOW_REQUESTED ||| WINDOW_RECORDS_REQUESTED) then
    let inUse := !optimiseFetching ||
      windowIsStillInUse i windowSize prefetch ranges
    let step1 :=
      if hasFlag status WINDOW_RECORDS_REQUESTED then
        let status := clearFlag status WINDOW_RECORDS_REQUESTED
        let s2 := if inUse then
            (status ||| WINDOW_LOADING ||| WINDOW_RECORDS_LOADING,
             coalesceRequest recordReqs (i * windowSize) windowSize)
          else (status, recordReqs)
        let status := if inUse || !isAnExplicitIdFetch then
            clearFlag s2.1 WINDOW_REQUESTED
          else s2.1 ||| WINDOW_REQUESTED
        (status, s2.2)
      else (status, recordReqs)
    let step2 :=
      if hasFlag step1.1 WINDOW_REQUESTED then
        let s3 := if inUse || isAnExplicitIdFetch then
            (step1.1 ||| WINDOW_LOADING,
             coalesceRequest idReqs (i * windowSize) windowSize)
          else (step1.1, idReqs)
        (clearFlag s3.1 WINDOW_REQUESTED, s3.2)
      else (step1.1, idReqs)
    (setWindow windows i step2.1, step2.2, step1.2)
  else if fetchAllObservedIds then
    let inUse := windowIsStillInUse i windowSize prefetch ranges
    let idReqs := if inUse then
        coalesceRequest idReqs (i * windowSize) windowSize
      else idReqs
    (setWindow windows i status, idReqs, recordReqs)
  else (setWindow windows i status, idReqs, recordReqs)

/-- `sourceWillFetchQuery` (source lines 1634-1736): move requested windows
to loading (dropping requests no longer in use when `optimiseFetching` is
on), batch contiguous windows into `(start, count)` ranges, clear the
pending-refresh and explicit-fetch bookkeeping, and set the LOADING status
(clearing OBSOLETE and DIRTY) when a refresh was requested or the query is
still EMPTY. -/
def sourceWillFetchQuery (q : WindowedQuery K) :
    WindowedQuery K × FetchRequest K :=
  let windowSize := q.windowSize
  let isAnExplicitIdFetch := q.isAnExplicitIdFetch
  let indexOfRequested := q.indexOfRequested
  let refreshRequested := q.refreshPending
  let fetchAllObservedIds := refreshRequested && !canGetDeltaUpdates
  let q := { q with
    isAnExplicitIdFetch := false
    indexOfRequested := []
    refreshPending := false }
  let r := (List.range q.windows.length).foldl
    (willFetchStep windowSize q.prefetch q.optimiseFetching
      isAnExplicitIdFetch fetchAllObservedIds q.rangeObservers)
    (q.windows, [], [])
  let q := { q with windows := r.1 }
  let q := if refreshRequested || hasFlag q.status EMPTY then
      { q with status := clearFlag (q.status ||| LOADING) (OBSOLETE ||| DIRTY) }
    else q
  (q, { ids := r.2.1, records := r.2.2, indexOf := indexOfRequested,
        refresh := refreshRequested })

/-- The completion callback returned by `sourceWillFetchQuery` (source lines
1729-1734): clear the per-window loading flags and the LOADING status. -/
def sourceFetchCallback (q : WindowedQuery K) : WindowedQuery K :=
  { q with
    windows := q.windows.map (fun status =>
      clearFlag status (WINDOW_LOADING ||| WINDOW_RECORDS_LOADING))
    status := clearFlag q.status LOADING }

end Reconcile

/-! ### Concrete scenarios

The spec's worked example: the list `[a, b, c, d, e]` at state `S0`, fully
loaded (window 0 ready), default configuration (`windowSize` 30 in the
window-table scenarios is irrelevant for the reconciliation ones). -/

/-- The base query of the spec's scenarios: `[a,b,c,d,e]`, state `S0`,
READY, no preemptive updates, default configuration. -/
def scenarioBase : WindowedQuery String :=
  { list := [some "a", some "b", some "c", some "d", some "e"]
    state := "S0"
    status := READY
    length := some 5
    windows := [WINDOW_READY]
    preemptiveUpdates := []
    waitingPackets := []
    indexOfRequested := []
    isAnExplicitIdFetch := false
    refreshPending := false
    sortKey := 0
    filterKey := 0
    rangeObservers := []
    windowSize := 30
    triggerPoint := 10
    prefetch := 1
    optimiseFetching := false
    storeStatus := fun _ => READY }

/-- The client preemptively removes `b`: local list `[a,c,d,e]`, DIRTY. -/
def scenarioAfterRemoveB : WindowedQuery String :=
  clientDidGenerateUpdate scenarioBase
    { removed := ["b"], added := [], total := none, upto := none }

/-- The fetch cycle begins: `sourceWillFetchQuery` moves the query to
LOADING and clears DIRTY (the preemptive update is covered by the fetch that
is about to be issued). -/
def scenarioFetching : WindowedQuery String :=
  (sourceWillFetchQuery scenarioAfterRemoveB).1

/-! ### Claim theorems: the concrete reconciliation scenarios -/

/-- C1.  Diverged-speculation rollback: with one queued preemptive update
that removed `b` (local list `[a,c,d,e]`), the server delta
`{oldState: S0, newState: S1, removed: [c], added: [], total: 4}` leaves the
local list equal to `[a,b,d,e]` — the speculative removal of `b` undone and
the real removal of `c` applied — and empties the preemptive update
queue. -/
theorem C1_diverged_speculation_rollback :
    (sourceDidFetchUpdate scenarioFetching
      { newState := "S1", oldState := "S0", sortKey := 0, filterKey := 0,
        removed := ["c"], added := [], upto := none, total := 4 }).list =
      [some "a", some "b", some "d", some "e"] ∧
    (sourceDidFetchUpdate scenarioFetching
      { newState := "S1", oldState := "S0", sortKey := 0, filterKey := 0,
        removed := ["c"], added := [], upto := none, total := 4
        }).preemptiveUpdates = [] := by
  decide

/-- C2.  Correct-speculation confirmation: after the client preemptively
removes `b` (local list `[a,c,d,e]`, DIRTY set) and the fetch cycle begins,
the server delta `{oldState: S0, newState: S1, removed: [b], added: [],
total: 4}` leaves the local list `[a,c,d,e]` (reconciliation never touches
its contents — no flicker), sets the state token to `S1`, removes the
confirmed preemptive from the queue and leaves DIRTY clear. -/
theorem C2_correct_speculation_confirmation :
    scenarioAfterRemoveB.list = [some "a", some "c", some "d", some "e"] ∧
    hasFlag scenarioAfterRemoveB.status DIRTY = true ∧
    (sourceDidFetchUpdate scenarioFetching
      { newState := "S1", oldState := "S0", sortKey := 0, filterKey := 0,
        removed := ["b"], added := [], upto := none, total := 4 }).list =
      [some "a", some "c", some "d", some "e"] ∧
    (sourceDidFetchUpdate scenarioFetching
      { newState := "S1", oldState := "S0", sortKey := 0, filterKey := 0,
        removed := ["b"], added := [], upto := none, total := 4 }).state =
      "S1" ∧
    (sourceDidFetchUpdate scenarioFetching
      { newState := "S1", oldState := "S0", sortKey := 0, filterKey := 0,
        removed := ["b"], added := [], upto := none, total := 4
        }).preemptiveUpdates = [] ∧
    hasFlag (sourceDidFetchUpdate scenarioFetching
      { newState := "S1", oldState := "S0", sortKey := 0, filterKey := 0,
        removed := ["b"], added := [], upto := none, total := 4 }).status
      DIRTY = false := by
  decide

/-! ### Claim theorems: stale deltas and same-state confirmation -/

section StatusLemmas

/-- A set flag tests as set: `(s | f) & f` is nonzero for nonzero `f`. -/
theorem hasFlag_or_self (s f : Nat) (hf : f ≠ 0) :
    hasFlag (s ||| f) f = true := by
  simp only [hasFlag, decide_eq_true_eq]
  obtain ⟨i, hi⟩ := Nat.ne_zero_implies_bit_true hf
  intro h
  have := congrArg (fun n => n.testBit i) h
  simp [Nat.testBit_and, Nat.testBit_or, hi] at this

end StatusLemmas

/-- Helper for C7: folding `composeUpdates` over updates that neither
truncate nor carry `upto` yields an update that neither truncates nor
carries `upto`. -/
theorem foldl_compose_no_trunc_no_upto {K : Type} [DecidableEq K]
    (p : Update K) (ps : List (Update K))
    (h : ∀ u ∈ p :: ps, u.truncateAtFirstGap = false ∧ u.upto = none) :
    (ps.foldl composeUpdates p).truncateAtFirstGap = false ∧
      (ps.foldl composeUpdates p).upto = none := by
  induction ps generalizing p with
  | nil => exact h p (List.mem_cons_self p [])
  | cons u us ih =>
      have hp := h p (List.mem_cons_self p _)
      have hu := h u (List.mem_cons_of_mem p (List.mem_cons_self u us))
      refine ih (composeUpdates p u) ?_
      intro v hv
      rcases List.mem_cons.mp hv with hv | hv
      · subst hv
        constructor
        · simp [composeUpdates, hp.1, hu.1]
        · simp [composeUpdates, hu.2]
      · exact h v (List.mem_cons_of_mem p (List.mem_cons_of_mem u hv))

section ApplyLemmas

variable {K : Type} [DecidableEq K]

/-- `recalculateFetchedWindows` only rewrites the window table. -/
theorem recalculateFetchedWindows_eq (q : WindowedQuery K) (s : Nat)
    (n : Int) : recalculateFetchedWindows q s n =
      { q with windows := (recalculateFetchedWindows q s n).windows } := by
  unfold recalculateFetchedWindows
  dsimp only
  split <;> rfl

/-- With no waiting packets, `_applyWaitingPackets` does nothing. -/
theorem applyWaitingPackets_nil (q : WindowedQuery K)
    (h : q.waitingPackets = []) : applyWaitingPackets q = q := by
  unfold applyWaitingPackets applyWaitingPacketsAux
  rw [h]
  rfl

/-- `finishApplyUpdate` only touches the window table, the length and (when
packets wait) whatever their replay touches; with no waiting packets the
list is the one passed in. -/
theorem finishApplyUpdate_list (q : WindowedQuery K) (t : Int)
    (fc : Option Int) (rn : Bool) (hwp : q.waitingPackets = []) :
    (finishApplyUpdate q t fc rn).list = q.list := by
  unfold finishApplyUpdate
  split
  · rw [recalculateFetchedWindows_eq]
    simp only [applyWaitingPackets_nil, hwp]
  · simp only [applyWaitingPackets_nil, hwp]

/-- With no waiting packets, `finishApplyUpdate` preserves the preemptive
queue. -/
theorem finishApplyUpdate_preemptives (q : WindowedQuery K) (t : Int)
    (fc : Option Int) (rn : Bool) (hwp : q.waitingPackets = []) :
    (finishApplyUpdate q t fc rn).preemptiveUpdates = q.preemptiveUpdates := by
  unfold finishApplyUpdate
  split
  · rw [recalculateFetchedWindows_eq]
    simp only [applyWaitingPackets_nil, hwp]
  · simp only [applyWaitingPackets_nil, hwp]

/-- With no waiting packets, `finishApplyUpdate` preserves the state
token. -/
theorem finishApplyUpdate_state (q : WindowedQuery K) (t : Int)
    (fc : Option Int) (rn : Bool) (hwp : q.waitingPackets = []) :
    (finishApplyUpdate q t fc rn).state = q.state := by
  unfold finishApplyUpdate
  split
  · rw [recalculateFetchedWindows_eq]
    simp only [applyWaitingPackets_nil, hwp]
  · simp only [applyWaitingPackets_nil, hwp]

/-- For an update with no `upto`, applied to a query with no waiting
packets, `_applyUpdate` preserves the state token. -/
theorem applyUpdate_clean_state (q : WindowedQuery K) (args : Update K)
    (hu : args.upto = none) (hwp : q.waitingPackets = []) :
    (_applyUpdate q args).state = q.state := by
  unfold _applyUpdate
  rw [hu]
  dsimp only
  simp only [finishApplyUpdate_state, hwp]

/-- For an update that does not truncate and carries no `upto`, applied to a
query with no waiting packets, `_applyUpdate` transforms the list exactly by
`applyUpdateToList`. -/
theorem applyUpdate_clean_list (q : WindowedQuery K) (args : Update K)
    (ht : args.truncateAtFirstGap = false) (hu : args.upto = none)
    (hwp : q.waitingPackets = []) :
    (_applyUpdate q args).list = applyUpdateToList args q.list := by
  unfold _applyUpdate
  rw [hu]
  dsimp only
  simp only [finishApplyUpdate_list, hwp]
  simp only [applyUpdateToList, ht, Bool.false_eq_true, if_false]

/-- For an update with no `upto`, applied to a query with no waiting
packets, `_applyUpdate` preserves the preemptive queue. -/
theorem applyUpdate_clean_preemptives (q : WindowedQuery K) (args : Update K)
    (hu : args.upto = none) (hwp : q.waitingPackets = []) :
    (_applyUpdate q args).preemptiveUpdates = q.preemptiveUpdates := by
  unfold _applyUpdate
  rw [hu]
  dsimp only
  simp only [finishApplyUpdate_preemptives, hwp]

end ApplyLemmas

/-- C6.  Stale-delta handling: whenever `sourceDidFetchUpdate` receives a
delta whose `oldState` differs from the query's current state token (and
whose `newState` also differs from it), the query is marked OBSOLETE, a full
refresh is pending, and the local list, state token, window table and
preemptive queue are all left unchanged — the delta is never applied. -/
theorem C6_stale_delta_obsolete {K : Type} [DecidableEq K]
    (q : WindowedQuery K) (u : DeltaUpdate K)
    (hn : q.state ≠ u.newState) (ho : q.state ≠ u.oldState) :
    hasFlag (sourceDidFetchUpdate q u).status OBSOLETE = true ∧
    (sourceDidFetchUpdate q u).refreshPending = true ∧
    (sourceDidFetchUpdate q u).list = q.list ∧
    (sourceDidFetchUpdate q u).state = q.state ∧
    (sourceDidFetchUpdate q u).windows = q.windows ∧
    (sourceDidFetchUpdate q u).preemptiveUpdates = q.preemptiveUpdates := by
  have heq : sourceDidFetchUpdate q u =
      setObsolete { q with status := clearFlag q.status LOADING } := by
    unfold sourceDidFetchUpdate
    dsimp only
    rw [if_neg hn, if_pos ho]
  rw [heq]
  exact ⟨hasFlag_or_self _ _ (by decide), rfl, rfl, rfl, rfl, rfl⟩

/-- C6 witness: the stale-delta theorem applied to the concrete base
scenario and a delta from an unrelated state `SX` to `S9`. -/
theorem C6_stale_delta_obsolete_witness :
    hasFlag (sourceDidFetchUpdate scenarioBase
      { newState := "S9", oldState := "SX", sortKey := 0, filterKey := 0,
        removed := ["a"], added := [], upto := none, total := 4 }).status
      OBSOLETE = true ∧
    (sourceDidFetchUpdate scenarioBase
      { newState := "S9", oldState := "SX", sortKey := 0, filterKey := 0,
        removed := ["a"], added := [], upto := none, total := 4
        }).refreshPending = true ∧
    (sourceDidFetchUpdate scenarioBase
      { newState := "S9", oldState := "SX", sortKey := 0, filterKey := 0,
        removed := ["a"], added := [], upto := none, total := 4 }).list =
      scenarioBase.list ∧
    (sourceDidFetchUpdate scenarioBase
      { newState := "S9", oldState := "SX", sortKey := 0, filterKey := 0,
        removed := ["a"], added := [], upto := none, total := 4 }).state =
      scenarioBase.state ∧
    (sourceDidFetchUpdate scenarioBase
      { newState := "S9", oldState := "SX", sortKey := 0, filterKey := 0,
        removed := ["a"], added := [], upto := none, total := 4 }).windows =
      scenarioBase.windows ∧
    (sourceDidFetchUpdate scenarioBase
      { newState := "S9", oldState := "SX", sortKey := 0, filterKey := 0,
        removed := ["a"], added := [], upto := none, total := 4
        }).preemptiveUpdates = scenarioBase.preemptiveUpdates :=
  C6_stale_delta_obsolete scenarioBase
    { newState := "S9", oldState := "SX", sortKey := 0, filterKey := 0,
      removed := ["a"], added := [], upto := none, total := 4 }
    (by decide) (by decide)

/-- C7 counterexample: with the queued preemptive removal of `b` (local
list `[a,c,d,e]`, DIRTY already cleared by the fetch cycle, state `S0`), a
delta whose `newState` equals the current state does *not* leave the local
list unchanged: the preemptive is rolled back and the list returns to
`[a,b,c,d,e]`.  The claim's preconditions hold and its "no-op to the local
list" conclusion is false. -/
theorem C7_counterexample_not_a_noop :
    scenarioFetching.preemptiveUpdates ≠ [] ∧
    hasFlag scenarioFetching.status DIRTY = false ∧
    scenarioFetching.state = "S0" ∧
    (sourceDidFetchUpdate scenarioFetching
      { newState := "S0", oldState := "S0", sortKey := 0, filterKey := 0,
        removed := [], added := [], upto := none, total := 5 }).list ≠
      scenarioFetching.list := by
  decide

/-- C7 (amended).  Same-state confirmation: when `update.newState` equals
the current state token, the preemptive queue is non-empty and the status is
not DIRTY, the outstanding preemptive updates are composed, *inverted and
applied to the local list* — rolling the speculation back to the last
server-confirmed state — and the queue is emptied.  (This is a no-op to the
list only when the composed preemptive has no net additions or removals;
the state token is untouched.)  The hypotheses `hclean` (client-generated
updates never truncate nor carry `upto`) and `hwp` (no queued id-list
packets) describe the states this branch is reached in. -/
theorem C7_same_state_rollback {K : Type} [DecidableEq K]
    (q : WindowedQuery K) (u : DeltaUpdate K) (p : Update K)
    (ps : List (Update K))
    (hstate : q.state = u.newState)
    (hq : q.preemptiveUpdates = p :: ps)
    (hdirty : hasFlag q.status DIRTY = false)
    (hclean : ∀ v ∈ q.preemptiveUpdates,
      v.truncateAtFirstGap = false ∧ v.upto = none)
    (hwp : q.waitingPackets = []) :
    (sourceDidFetchUpdate q u).preemptiveUpdates = [] ∧
    (sourceDidFetchUpdate q u).list =
      applyUpdateToList (invertUpdate (ps.foldl composeUpdates p)) q.list ∧
    (sourceDidFetchUpdate q u).state = q.state := by
  have hfold := foldl_compose_no_trunc_no_upto p ps (hq ▸ hclean)
  have heq : sourceDidFetchUpdate q u =
      { _applyUpdate { q with status := clearFlag q.status LOADING }
          (invertUpdate (ps.foldl composeUpdates p)) with
        preemptiveUpdates := [] } := by
    unfold sourceDidFetchUpdate
    dsimp only
    rw [if_pos hstate]
    have hq2 : ({ q with status := clearFlag q.status LOADING} :
        WindowedQuery K).preemptiveUpdates = p :: ps := hq
    rw [hq2]
    simp only [hdirty, Bool.false_eq_true, if_false]
  rw [heq]
  refine ⟨rfl, ?_, ?_⟩
  · exact applyUpdate_clean_list _ _
      (by simpa [invertUpdate] using hfold.1)
      (by simpa [invertUpdate] using hfold.2) hwp
  · have h2 := applyUpdate_clean_state
      ({ q with status := clearFlag q.status LOADING})
      (invertUpdate (ps.foldl composeUpdates p))
      (by simpa [invertUpdate] using hfold.2) hwp
    simpa using h2

/-- C7 witness: the rollback theorem applied at the concrete scenario; the
composed-and-inverted preemptive restores `[a,b,c,d,e]`. -/
theorem C7_same_state_rollback_witness :
    (sourceDidFetchUpdate scenarioFetching
      { newState := "S0", oldState := "S0", sortKey := 0, filterKey := 0,
        removed := [], added := [], upto := none, total := 5
        }).preemptiveUpdates = [] ∧
    (sourceDidFetchUpdate scenarioFetching
      { newState := "S0", oldState := "S0", sortKey := 0, filterKey := 0,
        removed := [], added := [], upto := none, total := 5 }).list =
      applyUpdateToList
        (invertUpdate (List.foldl composeUpdates
          { removedIndexes := [1], removedStoreKeys := ["b"],
            addedIndexes := [], addedStoreKeys := [],
            truncateAtFirstGap := false, total := 4, upto := none } []))
        scenarioFetching.list ∧
    (sourceDidFetchUpdate scenarioFetching
      { newState := "S0", oldState := "S0", sortKey := 0, filterKey := 0,
        removed := [], added := [], upto := none, total := 5 }).state =
      scenarioFetching.state :=
  C7_same_state_rollback scenarioFetching
    { newState := "S0", oldState := "S0", sortKey := 0, filterKey := 0,
      removed := [], added := [], upto := none, total := 5 }
    { removedIndexes := [1], removedStoreKeys := ["b"], addedIndexes := [],
      addedStoreKeys := [], truncateAtFirstGap := false, total := 4,
      upto := none }
    [] (by decide) (by decide) (by decide) (by decide) (by decide)

/-! ### Claim theorems: window fetching -/

/-- An empty query whose length is not yet known. -/
def scenarioUnknownLength : WindowedQuery String :=
  { scenarioBase with list := [], length := none, windows := [] }

/-- An empty query with a known total of 90 records (three windows of 30). -/
def scenarioLength90 : WindowedQuery String :=
  { scenarioBase with list := [], length := some 90, windows := [] }

/-- C8 counterexample: with `windowSize` 30, default `prefetch` 1, default
`triggerPoint` 10 and an *unknown* length, requesting the record at index 45
marks nothing at all: `fetchWindow`'s loop bound is
`min(index + prefetch + 1, windowCount || 0)` and `windowCount` is `null`,
so the bound is `0` and the window table stays empty — no window receives
`WINDOW_REQUESTED`, contradicting the claim. -/
theorem C8_counterexample_unknown_length :
    (fetchDataForObjectAt scenarioUnknownLength 45).windows = [] ∧
    hasFlag (getWindow (fetchDataForObjectAt scenarioUnknownLength 45).windows
      1) WINDOW_REQUESTED = false := by
  decide

/-- C8 (amended).  With an unknown length, `fetchDataForObjectAt 45` marks
no windows at all (the `windowCount || 0` bound of `fetchWindow` is `0`);
the claimed marking happens when the length is known: with a total of 90,
requesting index 45 marks windows 0, 1 and 2 with `WINDOW_REQUESTED` and
only window 1 with `WINDOW_RECORDS_REQUESTED`. -/
theorem C8_prefetch_marking :
    (fetchDataForObjectAt scenarioUnknownLength 45).windows = [] ∧
    (fetchDataForObjectAt scenarioLength90 45).windows =
      [WINDOW_REQUESTED, WINDOW_REQUESTED ||| WINDOW_RECORDS_REQUESTED,
       WINDOW_REQUESTED] ∧
    hasFlag (getWindow (fetchDataForObjectAt scenarioLength90 45).windows 0)
      WINDOW_REQUESTED = true ∧
    hasFlag (getWindow (fetchDataForObjectAt scenarioLength90 45).windows 1)
      WINDOW_REQUESTED = true ∧
    hasFlag (getWindow (fetchDataForObjectAt scenarioLength90 45).windows 2)
      WINDOW_REQUESTED = true ∧
    hasFlag (getWindow (fetchDataForObjectAt scenarioLength90 45).windows 1)
      WINDOW_RECORDS_REQUESTED = true ∧
    hasFlag (getWindow (fetchDataForObjectAt scenarioLength90 45).windows 0)
      WINDOW_RECORDS_REQUESTED = false ∧
    hasFlag (getWindow (fetchDataForObjectAt scenarioLength90 45).windows 2)
      WINDOW_RECORDS_REQUESTED = false := by
  decide

/-! ### Claim theorems: the records-ready scan -/

/-- A two-record query whose first record is READY in the store but whose
second record is EMPTY (not yet fetched). -/
def scenarioSecondRecordEmpty : WindowedQuery String :=
  { scenarioBase with
    list := [some "a", some "b"]
    length := some 2
    storeStatus := fun k => if k = some "b" then EMPTY else READY }

/-- C9: the claim states that `checkIfWindowIsFetched` returns true only if
*every* record in the window has a non-EMPTY/non-OBSOLETE status.  The code
has `return true` *inside* the `for` loop, so it inspects only the first
record of the window: here record `b` (index 1 of window 0) is EMPTY, yet
the function returns true.  This theorem evaluates the embedded code at the
failing input. -/
theorem C9_first_record_only :
    checkIfWindowIsFetched scenarioSecondRecordEmpty 0 = true ∧
    hasFlag (scenarioSecondRecordEmpty.storeStatus (some "b"))
      (EMPTY ||| OBSOLETE) = true ∧
    scenarioSecondRecordEmpty.list.getD 1 none = some "b" := by
  decide

/-! ### Claim theorems: the two code paths of mapIndexes -/

section MapIndexes

variable {K : Type} [DecidableEq K]

/-- The index of the last occurrence of `key` in the sparse list, defined
recursively for the proofs below; `hashIndexOf` computes exactly this. -/
def lastIdxOf : List (Option K) → K → Option Nat
  | [], _ => none
  | x :: rest, k =>
      match lastIdxOf rest k with
      | some j => some (j + 1)
      | none => if x = some k then some 0 else none

theorem lastIdxOf_eq_none_of_not_mem (l : List (Option K)) (k : K)
    (h : some k ∉ l) : lastIdxOf l k = none := by
  induction l with
  | nil => rfl
  | cons x rest ih =>
      have hx : ¬ x = some k := fun he => h (he ▸ List.mem_cons_self x rest)
      have hr : some k ∉ rest := fun hm => h (List.mem_cons_of_mem x hm)
      simp [lastIdxOf, ih hr, hx]

/-- The hash map built by `mapIndexes` holds the last index of each key. -/
theorem hashIndexOfAux_eq_lastIdxOf (k : K) (l : List (Option K)) :
    ∀ (i : Nat) (acc : Option Nat),
      hashIndexOfAux k l i acc =
        (match lastIdxOf l k with
         | some j => some (i + j)
         | none => acc) := by
  induction l with
  | nil => intro i acc; rfl
  | cons x rest ih =>
      intro i acc
      simp only [hashIndexOfAux]
      rw [ih]
      cases hr : lastIdxOf rest k with
      | some j =>
          simp only [lastIdxOf, hr, Option.some.injEq]
          omega
      | none =>
          simp only [lastIdxOf, hr]
          by_cases hx : x = some k
          · simp [hx]
          · simp [hx]

theorem hashIndexOf_eq_lastIdxOf (l : List (Option K)) (k : K) :
    hashIndexOf l k = lastIdxOf l k := by
  rw [hashIndexOf, hashIndexOfAux_eq_lastIdxOf]
  cases lastIdxOf l k <;> simp

/-- On a list whose present keys are pairwise distinct, the first occurrence
of a key is also its last occurrence. -/
theorem findIdx_eq_lastIdxOf (k : K) (l : List (Option K))
    (h : (l.filterMap id).Nodup) :
    ∀ i : Nat, l.findIdx? (fun x => x = some k) i =
      (lastIdxOf l k).map (fun j => i + j) := by
  induction l with
  | nil => intro i; rfl
  | cons x rest ih =>
      intro i
      rw [List.findIdx?_cons]
      by_cases hx : x = some k
      · have hk : k ∉ rest.filterMap id := by
          subst hx
          rw [List.filterMap_cons] at h
          exact (List.nodup_cons.mp h).1
        have hnm : some k ∉ rest := fun hm =>
          hk (List.mem_filterMap.mpr ⟨some k, hm, rfl⟩)
        simp only [lastIdxOf, lastIdxOf_eq_none_of_not_mem rest k hnm, hx]
        simp
      · have hrest : (rest.filterMap id).Nodup := by
          rw [List.filterMap_cons] at h
          cases hid : id x with
          | none => rw [hid] at h; exact h
          | some v => rw [hid] at h; exact h.of_cons
        rw [ih hrest]
        simp only [lastIdxOf]
        cases hr : lastIdxOf rest k with
        | some j =>
            simp only [hx, decide_False, Bool.false_eq_true, if_false,
              Option.map_some, Option.map_some', Option.some.injEq]
            omega
        | none => simp [hx]

/-- C5 counterexample: on a list containing the same key at two positions,
the linear-scan branch (`indexOf`: first occurrence) and the hash-map branch
(map build overwrites: last occurrence) return different indexes for the
same inputs, so the two code paths are not equivalent on all inputs. -/
theorem C5_counterexample_duplicate_key :
    mapIndexesLinear [some "a", some "a"] ["a"] = [0] ∧
    mapIndexesHash [some "a", some "a"] ["a"] = [1] ∧
    mapIndexesLinear [some "a", some "a"] ["a"] ≠
      mapIndexesHash [some "a", some "a"] ["a"] := by
  decide

/-- C5 (amended).  The two code paths of `mapIndexes` return identical
results for every list in which no store key occupies more than one
position (the invariant of a query's list, whose entries are distinct record
keys); consequently `mapIndexes` always agrees with the linear scan on such
lists.  On a list with a duplicated key the branches differ: the linear scan
yields the first index and the hash map the last. -/
theorem C5_mapIndexes_agree {K : Type} [DecidableEq K]
    (list : List (Option K)) (storeKeys : List K)
    (h : (list.filterMap id).Nodup) :
    mapIndexesLinear list storeKeys = mapIndexesHash list storeKeys ∧
    mapIndexes list storeKeys = mapIndexesLinear list storeKeys := by
  have hpt : ∀ k ∈ storeKeys, jsIndexOf list k =
      (match hashIndexOf list k with
       | some i => (i : Int)
       | none => -1) := by
    intro k _
    rw [jsIndexOf, hashIndexOf_eq_lastIdxOf, findIdx_eq_lastIdxOf k list h 0]
    cases lastIdxOf list k <;> simp
  have hmain : mapIndexesLinear list storeKeys =
      mapIndexesHash list storeKeys := by
    unfold mapIndexesLinear mapIndexesHash
    exact List.map_congr_left hpt
  refine ⟨hmain, ?_⟩
  unfold mapIndexes
  split
  · rfl
  · exact hmain.symm

/-- C5 witness: both code paths on the duplicate-free scenario list. -/
theorem C5_mapIndexes_agree_witness :
    mapIndexesLinear [some "a", some "b", some "c", none, some "e"]
        ["c", "x", "a"] =
      mapIndexesHash [some "a", some "b", some "c", none, some "e"]
        ["c", "x", "a"] ∧
    mapIndexes [some "a", some "b", some "c", none, some "e"]
        ["c", "x", "a"] =
      mapIndexesLinear [some "a", some "b", some "c", none, some "e"]
        ["c", "x", "a"] :=
  C5_mapIndexes_agree [some "a", some "b", some "c", none, some "e"]
    ["c", "x", "a"] (by decide)

end MapIndexes

/-! ### Properties of the stable sort used by sortLinkedArrays -/

section SortLemmas

variable {K : Type} [DecidableEq K] {I : Type} [LinearOrder I]

theorem mem_insertSortedPair (x a : I × K) (l : List (I × K)) :
    a ∈ insertSortedPair x l ↔ a = x ∨ a ∈ l := by
  induction l with
  | nil => simp [insertSortedPair]
  | cons y ys ih =>
      by_cases hy : y.1 < x.1
      · simp only [insertSortedPair, if_pos hy, List.mem_cons, ih]
        try tauto
      · simp only [insertSortedPair, if_neg hy, List.mem_cons]
        try tauto

theorem mem_stableSortPairs (a : I × K) (l : List (I × K)) :
    a ∈ stableSortPairs l ↔ a ∈ l := by
  induction l with
  | nil => simp [stableSortPairs]
  | cons x xs ih =>
      simp only [stableSortPairs, mem_insertSortedPair, ih, List.mem_cons]

theorem pairwise_insertSortedPair (x : I × K) (l : List (I × K))
    (h : l.Pairwise (fun a b => a.1 ≤ b.1)) :
    (insertSortedPair x l).Pairwise (fun a b => a.1 ≤ b.1) := by
  induction l with
  | nil => simp [insertSortedPair]
  | cons y ys ih =>
      rcases List.pairwise_cons.mp h with ⟨hy, hys⟩
      by_cases hlt : y.1 < x.1
      · rw [insertSortedPair, if_pos hlt]
        refine List.pairwise_cons.mpr ⟨?_, ih hys⟩
        intro a ha
        rcases (mem_insertSortedPair x a ys).mp ha with rfl | ha
        · exact le_of_lt hlt
        · exact hy a ha
      · rw [insertSortedPair, if_neg hlt]
        refine List.pairwise_cons.mpr ⟨?_, h⟩
        intro a ha
        rcases List.mem_cons.mp ha with rfl | ha
        · exact le_of_not_lt hlt
        · exact le_trans (le_of_not_lt hlt) (hy a ha)

theorem pairwise_stableSortPairs (l : List (I × K)) :
    (stableSortPairs l).Pairwise (fun a b => a.1 ≤ b.1) := by
  induction l with
  | nil => simp [stableSortPairs]
  | cons x xs ih => exact pairwise_insertSortedPair x (stableSortPairs xs) ih

end SortLemmas

/-! ### Claim theorems: client-generated updates never truncate -/

section ClientUpdate

variable {K : Type} [DecidableEq K]

/-- Every index `mapIndexes` produces is at least `-1`. -/
theorem mapIndexes_ge_neg_one (l : List (Option K)) (ks : List K) :
    ∀ v ∈ mapIndexes l ks, -1 ≤ v := by
  intro v hv
  unfold mapIndexes at hv
  split at hv
  · rcases List.mem_map.mp hv with ⟨k, _, rfl⟩
    rcases hf : l.findIdx? (fun x => x = some k) with _ | i <;>
      simp [jsIndexOf, hf] <;> omega
  · rcases List.mem_map.mp hv with ⟨k, _, rfl⟩
    rcases hf : hashIndexOf l k with _ | i <;> simp [hf] <;> omega

/-- A removed key that is not in the local list maps to `-1`. -/
theorem neg_one_mem_mapIndexes (l : List (Option K)) (ks : List K) (k : K)
    (hk : k ∈ ks) (hnm : some k ∉ l) : (-1 : Int) ∈ mapIndexes l ks := by
  unfold mapIndexes
  split
  · refine List.mem_map.mpr ⟨k, hk, ?_⟩
    unfold jsIndexOf
    rw [List.findIdx?_eq_none_iff.mpr ?_]
    intro x hx
    simp only [decide_eq_false_iff_not]
    exact fun he => hnm (he ▸ hx)
  · refine List.mem_map.mpr ⟨k, hk, ?_⟩
    rw [hashIndexOf_eq_lastIdxOf, lastIdxOf_eq_none_of_not_mem l k hnm]

/-- In a sorted list bounded below by `-1` that contains `-1`, the leading
run of `-1` entries is nonempty. -/
theorem takeWhile_neg_one_ne_nil (s : List Int) (hmem : (-1 : Int) ∈ s)
    (hlb : ∀ v ∈ s, -1 ≤ v) (hsort : s.Pairwise (fun a b => a ≤ b)) :
    (s.takeWhile (fun x => x = -1)).length ≠ 0 := by
  cases s with
  | nil => cases hmem
  | cons v rest =>
      have hv : v = -1 := by
        rcases List.mem_cons.mp hmem with h | h
        · exact h.symm
        · have h1 := (List.pairwise_cons.mp hsort).1 (-1) h
          have h2 := hlb v (List.mem_cons_self v rest)
          omega
      rw [List.takeWhile_cons]
      simp [hv]

/-- `_normaliseUpdate` sets `truncateAtFirstGap` whenever some removed key
cannot be resolved to an index in the local list. -/
theorem normalise_truncates_of_unresolved (q : WindowedQuery K)
    (u : RawUpdate K) (k : K) (hk : k ∈ u.removed) (hnm : some k ∉ q.list) :
    (_normaliseUpdate q u).truncateAtFirstGap = true := by
  have hmm : (-1 : Int) ∈ mapIndexes q.list u.removed :=
    neg_one_mem_mapIndexes q.list u.removed k hk hnm
  set zipped := (mapIndexes q.list u.removed).zip u.removed with hz
  have hlen : (mapIndexes q.list u.removed).length = u.removed.length := by
    unfold mapIndexes
    split
    · exact List.length_map _ _
    · exact List.length_map _ _
  have hmem1 : (-1 : Int) ∈ (stableSortPairs zipped).map Prod.fst := by
    rcases List.mem_iff_getElem.mp hmm with ⟨i, hi, hgi⟩
    have hiz : i < zipped.length := by
      rw [hz, List.length_zip, hlen]
      simp only [min_self]
      rw [hlen] at hi
      exact hi
    refine List.mem_map.mpr ⟨zipped[i], ?_, ?_⟩
    · exact (mem_stableSortPairs _ _).mpr (zipped.getElem_mem hiz)
    · simp only [hz, List.getElem_zip]
      exact hgi
  have hlb : ∀ v ∈ (stableSortPairs zipped).map Prod.fst, (-1 : Int) ≤ v := by
    intro v hv
    rcases List.mem_map.mp hv with ⟨p, hp, rfl⟩
    have hpz : p ∈ zipped := (mem_stableSortPairs _ _).mp hp
    exact mapIndexes_ge_neg_one q.list u.removed p.1
      (List.of_mem_zip hpz).1
  have hsort : ((stableSortPairs zipped).map Prod.fst).Pairwise
      (fun a b => a ≤ b) :=
    List.pairwise_map.mpr (pairwise_stableSortPairs zipped)
  have hne := takeWhile_neg_one_ne_nil _ hmem1 hlb hsort
  simp only [_normaliseUpdate, sortLinkedArrays]
  simpa using hne

/-- C10.  A client-generated preemptive update never truncates the list at
a gap: `clientDidGenerateUpdate` forces `truncateAtFirstGap` off after
normalising, so the queued preemptive carries `truncateAtFirstGap = false`
and the applied list transformation is purely remove-then-insert — removed
keys whose index cannot be found were already dropped by the normalisation
and the rest of the list is left intact.  By contrast the normalised update
itself (which is what a server update applies) has
`truncateAtFirstGap = true` whenever some removed key is not present
locally, and `_applyUpdate` then truncates at the first gap. -/
theorem C10_client_update_never_truncates (q : WindowedQuery K)
    (u : RawUpdate K) (hupto : u.upto = none) (hwp : q.waitingPackets = []) :
    (clientDidGenerateUpdate q u).preemptiveUpdates =
      q.preemptiveUpdates ++
        [{ _normaliseUpdate q u with truncateAtFirstGap := false }] ∧
    (clientDidGenerateUpdate q u).list =
      applyAdditions
        ((_normaliseUpdate q u).addedIndexes.zip
          (_normaliseUpdate q u).addedStoreKeys)
        (applyRemovals (_normaliseUpdate q u).removedIndexes q.list) ∧
    ((∃ k ∈ u.removed, some k ∉ q.list) →
      (_normaliseUpdate q u).truncateAtFirstGap = true) := by
  have hnupto : (_normaliseUpdate q u).upto = none := hupto
  refine ⟨?_, ?_, ?_⟩
  · unfold clientDidGenerateUpdate refresh
    dsimp only
    rw [applyUpdate_clean_preemptives q
      { _normaliseUpdate q u with truncateAtFirstGap := false } hnupto hwp]
  · unfold clientDidGenerateUpdate refresh
    dsimp only
    rw [applyUpdate_clean_list q
      { _normaliseUpdate q u with truncateAtFirstGap := false } rfl hnupto hwp]
    rfl
  · rintro ⟨k, hk, hnm⟩
    exact normalise_truncates_of_unresolved q u k hk hnm

/-- C10 witness: the client removes `b` (present) and `z` (not loaded): the
queued update does not truncate, the list keeps its tail intact, and the
normalised update (the server-side shape) does flag truncation. -/
theorem C10_client_update_never_truncates_witness :
    (clientDidGenerateUpdate scenarioBase
      { removed := ["b", "z"], added := [], total := none,
        upto := none }).preemptiveUpdates =
      scenarioBase.preemptiveUpdates ++
        [{ _normaliseUpdate scenarioBase
            { removed := ["b", "z"], added := [], total := none,
              upto := none } with truncateAtFirstGap := false }] ∧
    (clientDidGenerateUpdate scenarioBase
      { removed := ["b", "z"], added := [], total := none,
        upto := none }).list =
      applyAdditions
        ((_normaliseUpdate scenarioBase
          { removed := ["b", "z"], added := [], total := none,
            upto := none }).addedIndexes.zip
          (_normaliseUpdate scenarioBase
            { removed := ["b", "z"], added := [], total := none,
              upto := none }).addedStoreKeys)
        (applyRemovals
          (_normaliseUpdate scenarioBase
            { removed := ["b", "z"], added := [], total := none,
              upto := none }).removedIndexes scenarioBase.list) ∧
    ((∃ k ∈ ["b", "z"], some k ∉ scenarioBase.list) →
      (_normaliseUpdate scenarioBase
        { removed := ["b", "z"], added := [], total := none,
          upto := none }).truncateAtFirstGap = true) :=
  C10_client_update_never_truncates scenarioBase
    { removed := ["b", "z"], added := [], total := none, upto := none }
    (by decide) (by decide)

end ClientUpdate

/-! ### Claim theorems: the round-trip law compose(u, invert(u)) -/

section RoundTrip

variable {K : Type} [DecidableEq K]

/-- On a sorted array, `binarySearch` (the count of smaller elements) points
at the value whenever the value is present — the exact-match cancellation
test of `adjustIndexes` fires for every member. -/
theorem get_binarySearch_of_mem (A : List Nat) (v : Nat)
    (hs : A.Pairwise (fun a b => a ≤ b)) (hv : v ∈ A) :
    A[binarySearch A v]? = some v := by
  induction A with
  | nil => cases hv
  | cons a A ih =>
      rcases List.pairwise_cons.mp hs with ⟨ha, hs2⟩
      by_cases hlt : a < v
      · have hva : v ≠ a := fun he => absurd (he ▸ hlt) (lt_irrefl v)
        have hvA : v ∈ A := by
          rcases List.mem_cons.mp hv with h | h
          · exact absurd h hva
          · exact h
        have hbs : binarySearch (a :: A) v = binarySearch A v + 1 := by
          simp [binarySearch, List.countP_cons, hlt]
        rw [hbs, List.getElem?_cons_succ]
        exact ih hs2 hvA
      · have hva : v = a := by
          rcases List.mem_cons.mp hv with h | h
          · exact h
          · exact le_antisymm (le_of_not_lt hlt) (ha v h)
        subst hva
        have hz : A.countP (fun x => decide (x < v)) = 0 :=
          List.countP_eq_zero.mpr (fun x hx => by
            simp only [decide_eq_true_eq]
            exact not_lt.mpr (ha x hx))
        have hbs : binarySearch (v :: A) v = 0 := by
          simp [binarySearch, List.countP_cons, hz]
        rw [hbs]
        simp

/-- When every removed index was added at the same position by the first
update (and the added indexes are sorted), the `adjustIndexes` loop cancels
every pair. -/
theorem adjustIndexesLoop_all_cancel (added removedBefore : List Nat)
    (hs : added.Pairwise (fun a b => a ≤ b)) :
    ∀ pairs : List (Nat × K), (∀ p ∈ pairs, p.1 ∈ added) →
      adjustIndexesLoop added removedBefore pairs = [] := by
  intro pairs
  induction pairs with
  | nil => intro _; rfl
  | cons p rest ih =>
      intro h
      have hp : p.1 ∈ added := h p (List.mem_cons_self p rest)
      rcases p with ⟨index, storeKey⟩
      rw [adjustIndexesLoop]
      rw [if_pos (get_binarySearch_of_mem added index hs hp)]
      exact ih (fun x hx => h x (List.mem_cons_of_mem _ hx))

/-- `mergeSLA` with an empty second run returns the first run. -/
theorem mergeSLA_nil (xs : List (Nat × K)) : mergeSLA xs [] = xs := by
  induction xs with
  | nil => rfl
  | cons x xs ih => simp [mergeSLA, ih]

/-- `adjustIndexes` when every pair cancels: only the first update's pairs
remain. -/
theorem adjustIndexes_all_cancel (removed added removedBefore : List Nat)
    (storeKeys removedBeforeStoreKeys : List K)
    (hs : added.Pairwise (fun a b => a ≤ b))
    (hmem : ∀ p ∈ removed.zip storeKeys, p.1 ∈ added)
    (hlen : removedBefore.length = removedBeforeStoreKeys.length) :
    adjustIndexes removed added removedBefore storeKeys
      removedBeforeStoreKeys = (removedBefore, removedBeforeStoreKeys) := by
  unfold adjustIndexes mergeSortedLinkedArrays
  rw [adjustIndexesLoop_all_cancel added removedBefore hs _ hmem]
  simp only [List.map_nil, List.zip_nil_left, mergeSLA_nil]
  rw [List.map_fst_zip _ _ (le_of_eq hlen),
    List.map_snd_zip _ _ (ge_of_eq hlen)]

/-- `composeUpdates u (invertUpdate u)`: every removal cancels against the
corresponding addition and vice versa, leaving the update that removes `u`'s
removed pairs and re-inserts exactly the same pairs at the same indexes. -/
theorem composeUpdates_invertUpdate (u : Update K)
    (hlenR : u.removedIndexes.length = u.removedStoreKeys.length)
    (hA : u.addedIndexes.Pairwise (fun a b => a ≤ b)) :
    composeUpdates u (invertUpdate u) =
      { removedIndexes := u.removedIndexes
        removedStoreKeys := u.removedStoreKeys
        addedIndexes := u.removedIndexes
        addedStoreKeys := u.removedStoreKeys
        truncateAtFirstGap := u.truncateAtFirstGap || u.truncateAtFirstGap
        total := u.total + u.removedStoreKeys.length - u.addedStoreKeys.length
        upto := u.upto } := by
  unfold composeUpdates invertUpdate
  dsimp only
  rw [adjustIndexes_all_cancel _ _ _ _ _ hA
    (fun p hp => (List.of_mem_zip hp).1) hlenR]

/-- Distinct naturals that all lie strictly between `s` and `n` number at
most `n - s - 1`. -/
theorem length_le_of_nodup_bounds (S : List Nat) (s n : Nat) (hnd : S.Nodup)
    (h : ∀ x ∈ S, s < x ∧ x < n) : S.length ≤ n - s - 1 := by
  have hsub : S.toFinset ⊆ Finset.Ioo s n := fun x hx =>
    Finset.mem_Ioo.mpr (h x (List.mem_toFinset.mp hx))
  calc S.length = S.toFinset.card := (List.toFinset_card_of_nodup hnd).symm
    _ ≤ (Finset.Ioo s n).card := Finset.card_le_card hsub
    _ = n - s - 1 := Nat.card_Ioo s n

/-- Removing a strictly ascending, in-bounds batch of indexes shortens the
list by exactly the batch size. -/
theorem applyRemovals_length (R : List Nat) (L : List (Option K))
    (hasc : R.Pairwise (fun a b => a < b)) (hb : ∀ r ∈ R, r < L.length) :
    (applyRemovals R L).length = L.length - R.length := by
  induction R with
  | nil => rfl
  | cons s S ih =>
      rcases List.pairwise_cons.mp hasc with ⟨hsS, hS⟩
      have hlenS : (applyRemovals S L).length = L.length - S.length :=
        ih hS (fun r hr => hb r (List.mem_cons_of_mem s hr))
      have hcard : S.length ≤ L.length - s - 1 :=
        length_le_of_nodup_bounds S s L.length hS.nodup
          (fun x hx => ⟨hsS x hx, hb x (List.mem_cons_of_mem s hx)⟩)
      have hs : s < L.length := hb s (List.mem_cons_self s S)
      have hslt : s < (applyRemovals S L).length := by
        rw [hlenS]; omega
      show ((applyRemovals S L).eraseIdx s).length = L.length - (S.length + 1)
      rw [List.length_eraseIdx, if_pos hslt, hlenS]
      omega

/-- Removing only indexes above `r` does not disturb position `r`. -/
theorem applyRemovals_getElem_lt (R : List Nat) (L : List (Option K))
    (r : Nat) (h : ∀ x ∈ R, r < x) :
    (applyRemovals R L)[r]? = L[r]? := by
  induction R with
  | nil => rfl
  | cons s S ih =>
      have hrs : r < s := h s (List.mem_cons_self s S)
      show ((applyRemovals S L).eraseIdx s)[r]? = L[r]?
      rw [List.getElem?_eraseIdx, if_pos hrs]
      exact ih (fun x hx => h x (List.mem_cons_of_mem s hx))

/-- Re-inserting the element just erased restores the list. -/
theorem insertIdx_eraseIdx_getElem {α : Type} (M : List α) :
    ∀ (r : Nat) (v : α), M[r]? = some v →
      (M.eraseIdx r).insertIdx r v = M := by
  induction M with
  | nil => intro r v h; cases h
  | cons x M ih =>
      intro r v h
      cases r with
      | zero =>
          have hv : v = x := by
            simpa using h.symm
          subst hv
          rw [List.eraseIdx_cons_zero]
          rfl
      | succ r =>
          rw [List.eraseIdx_cons_succ, List.insertIdx_succ_cons]
          rw [ih r v (by simpa using h)]

/-- Within bounds, the pad-or-splice insertion is exactly `insertIdx` (at
the very end both produce the same append). -/
theorem insertAt_eq_insertIdx (r : Nat) (k : K) (M : List (Option K))
    (h : r ≤ M.length) : insertAt r k M = M.insertIdx r (some k) := by
  unfold insertAt
  rcases lt_or_eq_of_le h with hlt | heq
  · rw [if_neg (by omega)]
  · subst heq
    rw [if_pos (le_refl _)]
    simp [List.insertIdx_length_self]

/-- Removing the pairs of an ascending, in-bounds, list-consistent batch and
then re-inserting exactly the same pairs restores the original list. -/
theorem applyAdditions_zip_applyRemovals (R : List Nat) :
    ∀ (RK : List K) (L : List (Option K)),
      R.length = RK.length →
      R.Pairwise (fun a b => a < b) →
      (∀ r ∈ R, r < L.length) →
      (∀ p ∈ R.zip RK, L[p.1]? = some (some p.2)) →
      applyAdditions (R.zip RK) (applyRemovals R L) = L := by
  induction R with
  | nil => intro RK L _ _ _ _; rfl
  | cons r R ih =>
      intro RK L hlen hasc hb hcons
      cases RK with
      | nil => cases hlen
      | cons k RK =>
          rcases List.pairwise_cons.mp hasc with ⟨hrR, hR⟩
          have hbt : ∀ x ∈ R, x < L.length :=
            fun x hx => hb x (List.mem_cons_of_mem r hx)
          have hM'r : (applyRemovals R L)[r]? = some (some k) := by
            rw [applyRemovals_getElem_lt R L r hrR]
            exact hcons (r, k) (List.mem_cons_self _ _)
          have hlenM' : (applyRemovals R L).length = L.length - R.length :=
            applyRemovals_length R L hR hbt
          have hcard : R.length ≤ L.length - r - 1 :=
            length_le_of_nodup_bounds R r L.length hR.nodup
              (fun x hx => ⟨hrR x hx, hbt x hx⟩)
          have hrL : r < L.length := hb r (List.mem_cons_self r R)
          have hrlt : r < (applyRemovals R L).length := by
            rw [hlenM']; omega
          show applyAdditions ((r, k) :: R.zip RK)
            ((applyRemovals R L).eraseIdx r) = L
          rw [applyAdditions]
          rw [insertAt_eq_insertIdx r k _ (by
            rw [List.length_eraseIdx, if_pos hrlt]; omega)]
          rw [insertIdx_eraseIdx_getElem (applyRemovals R L) r (some k)
            hM'r]
          exact ih RK L (by simpa using hlen) hR hbt
            (fun p hp => hcons p (List.mem_cons_of_mem _ hp))

/-- C3.  Round-trip law: for every canonical update `u` (ascending
`removedIndexes` paired one-to-one with `removedStoreKeys`, ascending
`addedIndexes`, no truncation marker, no `upto`) and every list `L`
consistent with `u` (each removed pair names the key actually at that
index), applying `compose(u, invert(u))` to `L` yields `L` unchanged — the
composition acts as the identity update.  (Concretely the composition is
the update that removes `u`'s removed pairs and re-inserts exactly the same
keys at the same indexes, which restores any consistent list.) -/
theorem C3_compose_invert_roundtrip (u : Update K)
    (L : List (Option K))
    (hlenR : u.removedIndexes.length = u.removedStoreKeys.length)
    (hR : u.removedIndexes.Pairwise (fun a b => a < b))
    (hA : u.addedIndexes.Pairwise (fun a b => a ≤ b))
    (ht : u.truncateAtFirstGap = false)
    (hupto : u.upto = none)
    (hb : ∀ r ∈ u.removedIndexes, r < L.length)
    (hcons : ∀ p ∈ u.removedIndexes.zip u.removedStoreKeys,
      L[p.1]? = some (some p.2)) :
    applyUpdateToList (composeUpdates u (invertUpdate u)) L = L := by
  rw [composeUpdates_invertUpdate u hlenR hA]
  unfold applyUpdateToList
  dsimp only
  rw [ht]
  simp only [Bool.or_self, Bool.false_eq_true, if_false]
  exact applyAdditions_zip_applyRemovals u.removedIndexes u.removedStoreKeys
    L hlenR hR hb hcons

/-- C3 witness: the round-trip law at the update removing `(1, b)` and
`(3, d)` and adding `(2, x)` on the list `[a,b,c,d,e]`. -/
theorem C3_compose_invert_roundtrip_witness :
    applyUpdateToList
      (composeUpdates
        { removedIndexes := [1, 3], removedStoreKeys := ["b", "d"],
          addedIndexes := [2], addedStoreKeys := ["x"],
          truncateAtFirstGap := false, total := 4, upto := none }
        (invertUpdate
          { removedIndexes := [1, 3], removedStoreKeys := ["b", "d"],
            addedIndexes := [2], addedStoreKeys := ["x"],
            truncateAtFirstGap := false, total := 4, upto := none }))
      [some "a", some "b", some "c", some "d", some "e"] =
      [some "a", some "b", some "c", some "d", some "e"] :=
  C3_compose_invert_roundtrip
    { removedIndexes := [1, 3], removedStoreKeys := ["b", "d"],
      addedIndexes := [2], addedStoreKeys := ["x"],
      truncateAtFirstGap := false, total := 4, upto := none }
    [some "a", some "b", some "c", some "d", some "e"]
    (by decide) (by decide) (by decide) (by decide) (by decide)
    (by decide) (by decide)

end RoundTrip

/-! ### Claim C4: the compose/apply homomorphism

The proof factors `applyUpdateToList` into the erase phase and the insert
phase and commutes them: erasing `p2`'s indexes past `p1`'s insertions
(`eraseIdx_applyAdditions`), fusing the two erase batches
(`applyRemovals_applyRemovals`), and fusing the two insert batches
(`applyAdditions_applyAdditions`), which together turn the sequential
application into the application of the merged-and-translated batches that
`composeUpdates` builds via `adjustIndexes`. -/

section Homomorphism

variable {K : Type} [DecidableEq K]

/-- Inserting at the front never pads. -/
theorem insertAt_zero (x : K) (M : List (Option K)) :
    insertAt 0 x M = some x :: M := by
  cases M with
  | nil => rfl
  | cons m M => rfl

/-- Inserting past the head walks over it, in both the pad and the splice
branch. -/
theorem insertAt_succ_cons (i : Nat) (x : K) (m : Option K)
    (M : List (Option K)) :
    insertAt (i + 1) x (m :: M) = m :: insertAt i x M := by
  unfold insertAt
  by_cases h : M.length ≤ i
  · rw [if_pos (by simpa using h), if_pos h]
    simp only [List.length_cons]
    have : i + 1 - (M.length + 1) = i - M.length := by omega
    rw [this]
    rfl
  · rw [if_neg (by simpa using h), if_neg h, List.insertIdx_succ_cons]

/-- Inserting into the empty list pads with holes one at a time. -/
theorem insertAt_succ_nil (i : Nat) (x : K) :
    insertAt (i + 1) x ([] : List (Option K)) = none :: insertAt i x [] := by
  unfold insertAt
  simp only [List.length_nil, Nat.le_zero, Nat.zero_le, if_pos]
  simp [List.replicate_succ]

/-- Two insertions swap: inserting at `p` and then at `i > p` equals
inserting at `i - 1` first and then at `p`. -/
theorem insertAt_insertAt (p i : Nat) (h : p < i) (x y : K) :
    ∀ M : List (Option K),
      insertAt i y (insertAt p x M) = insertAt p x (insertAt (i - 1) y M) := by
  induction p generalizing i with
  | zero =>
      intro M
      obtain ⟨i, rfl⟩ : ∃ j, i = j + 1 := ⟨i - 1, by omega⟩
      rw [insertAt_zero, insertAt_succ_cons, Nat.add_sub_cancel, insertAt_zero]
  | succ p ih =>
      intro M
      obtain ⟨i, rfl⟩ : ∃ j, i = j + 1 + 1 := ⟨i - 2, by omega⟩
      have hpi : p < i + 1 := by omega
      simp only [Nat.add_sub_cancel]
      cases M with
      | cons m M =>
          rw [insertAt_succ_cons, insertAt_succ_cons, ih _ hpi,
            Nat.add_sub_cancel, insertAt_succ_cons, insertAt_succ_cons]
      | nil =>
          rw [insertAt_succ_nil, insertAt_succ_cons, ih _ hpi,
            Nat.add_sub_cancel, insertAt_succ_nil, insertAt_succ_cons]

/-- Erasing above an insertion point commutes with the insertion. -/
theorem eraseIdx_insertAt_gt (a m : Nat) (h : a < m) (x : K) :
    ∀ N : List (Option K),
      (insertAt a x N).eraseIdx m = insertAt a x (N.eraseIdx (m - 1)) := by
  induction a generalizing m with
  | zero =>
      intro N
      obtain ⟨m, rfl⟩ : ∃ j, m = j + 1 := ⟨m - 1, by omega⟩
      rw [insertAt_zero, List.eraseIdx_cons_succ, Nat.add_sub_cancel,
        insertAt_zero]
  | succ a ih =>
      intro N
      obtain ⟨m, rfl⟩ : ∃ j, m = j + 1 + 1 := ⟨m - 2, by omega⟩
      have ham : a < m + 1 := by omega
      simp only [Nat.add_sub_cancel]
      cases N with
      | cons n N =>
          rw [insertAt_succ_cons, List.eraseIdx_cons_succ, ih _ ham,
            Nat.add_sub_cancel, List.eraseIdx_cons_succ, insertAt_succ_cons]
      | nil =>
          simp only [List.eraseIdx_nil]
          rw [insertAt_succ_nil, List.eraseIdx_cons_succ, ih _ ham]
          simp [List.eraseIdx_nil, insertAt_succ_nil]

/-- Erasing below an insertion point commutes, shifting the insertion
down. -/
theorem eraseIdx_insertAt_lt (j a : Nat) (h : j < a) (x : K) :
    ∀ N : List (Option K),
      (insertAt a x N).eraseIdx j = insertAt (a - 1) x (N.eraseIdx j) := by
  induction j generalizing a with
  | zero =>
      intro N
      obtain ⟨a, rfl⟩ : ∃ b, a = b + 1 := ⟨a - 1, by omega⟩
      simp only [Nat.add_sub_cancel]
      cases N with
      | cons n N =>
          rw [insertAt_succ_cons, List.eraseIdx_cons_zero,
            List.eraseIdx_cons_zero]
      | nil =>
          rw [insertAt_succ_nil, List.eraseIdx_cons_zero]
          simp [List.eraseIdx_nil]
  | succ j ih =>
      intro N
      obtain ⟨a, rfl⟩ : ∃ b, a = b + 1 + 1 := ⟨a - 2, by omega⟩
      have hja : j < a + 1 := by omega
      simp only [Nat.add_sub_cancel]
      cases N with
      | cons n N =>
          rw [insertAt_succ_cons, List.eraseIdx_cons_succ, ih _ hja,
            Nat.add_sub_cancel, List.eraseIdx_cons_succ, insertAt_succ_cons]
      | nil =>
          simp only [List.eraseIdx_nil]
          rw [insertAt_succ_nil, List.eraseIdx_cons_succ, ih _ hja]
          simp [List.eraseIdx_nil, insertAt_succ_nil]

/-- Two erasures swap: erasing at `j` and then at `p < j` equals erasing at
`p` first and then at `j - 1`. -/
theorem eraseIdx_eraseIdx {α : Type} (p j : Nat) (h : p < j) :
    ∀ M : List α,
      (M.eraseIdx j).eraseIdx p = (M.eraseIdx p).eraseIdx (j - 1) := by
  induction p generalizing j with
  | zero =>
      intro M
      obtain ⟨j, rfl⟩ : ∃ i, j = i + 1 := ⟨j - 1, by omega⟩
      cases M with
      | nil => rfl
      | cons m M =>
          rw [List.eraseIdx_cons_succ, List.eraseIdx_cons_zero,
            List.eraseIdx_cons_zero, Nat.add_sub_cancel]
  | succ p ih =>
      intro M
      obtain ⟨j, rfl⟩ : ∃ i, j = i + 1 + 1 := ⟨j - 2, by omega⟩
      have hpj : p < j + 1 := by omega
      simp only [Nat.add_sub_cancel]
      cases M with
      | nil => rfl
      | cons m M =>
          rw [List.eraseIdx_cons_succ, List.eraseIdx_cons_succ, ih _ hpj,
            Nat.add_sub_cancel, List.eraseIdx_cons_succ,
            List.eraseIdx_cons_succ]

/-- `applyRemovals` peels its smallest index last. -/
theorem applyRemovals_cons (s : Nat) (S : List Nat) (L : List (Option K)) :
    applyRemovals (s :: S) L = (applyRemovals S L).eraseIdx s := rfl

/-- `applyRemovals` over an appended batch removes the right-hand batch
first. -/
theorem applyRemovals_append (X Y : List Nat) (L : List (Option K)) :
    applyRemovals (X ++ Y) L = applyRemovals X (applyRemovals Y L) := by
  unfold applyRemovals
  rw [List.foldr_append]

/-- `applyAdditions` over an appended batch inserts the left-hand batch
first. -/
theorem applyAdditions_append (X Y : List (Nat × K)) (L : List (Option K)) :
    applyAdditions (X ++ Y) L = applyAdditions Y (applyAdditions X L) := by
  induction X generalizing L with
  | nil => rfl
  | cons x X ih =>
      rcases x with ⟨i, k⟩
      rw [List.cons_append, applyAdditions, applyAdditions, ih]

/-- A `takeWhile` over a list where nothing satisfies the predicate. -/
theorem takeWhile_eq_nil_of_none {α : Type} (p : α → Bool) (l : List α)
    (h : ∀ x ∈ l, ¬ p x) : l.takeWhile p = [] := by
  cases l with
  | nil => rfl
  | cons a l =>
      rw [List.takeWhile_cons, if_neg (h a (List.mem_cons_self a l))]

/-- A `dropWhile` over a list where nothing satisfies the predicate. -/
theorem dropWhile_eq_self_of_none {α : Type} (p : α → Bool) (l : List α)
    (h : ∀ x ∈ l, ¬ p x) : l.dropWhile p = l := by
  cases l with
  | nil => rfl
  | cons a l =>
      rw [List.dropWhile_cons, if_neg (h a (List.mem_cons_self a l))]

/-- The index-only shadow of `mergeSLA`, for reasoning about the merged
index arrays on their own. -/
def mergeNat : List Nat → List Nat → List Nat
  | [], ys => ys
  | x :: xs, ys =>
      ys.takeWhile (fun y => y ≤ x) ++
        x :: mergeNat xs (ys.dropWhile (fun y => y ≤ x))

/-- The merged pair run projects onto the merge of the index runs. -/
theorem mergeSLA_map_fst (xs : List (Nat × K)) :
    ∀ ys : List (Nat × K),
      (mergeSLA xs ys).map Prod.fst =
        mergeNat (xs.map Prod.fst) (ys.map Prod.fst) := by
  induction xs with
  | nil => intro ys; rfl
  | cons x xs ih =>
      intro ys
      rw [mergeSLA, List.map_cons, mergeNat, List.map_append, List.map_cons,
        ih, List.takeWhile_map, List.dropWhile_map]
      rfl

/-- Merging with an empty second run is the identity (index version). -/
theorem mergeNat_nil (xs : List Nat) : mergeNat xs [] = xs := by
  induction xs with
  | nil => rfl
  | cons x xs ih => simp [mergeNat, ih]

/-- Splitting a merge at a second-run head absent from the first run: the
first-run elements below it come out first, then the head, then the merge
of the remainders. -/
theorem mergeNat_cons_right (b : Nat) :
    ∀ (R T : List Nat), b ∉ R →
      mergeNat R (b :: T) =
        R.takeWhile (fun x => x < b) ++
          b :: mergeNat (R.dropWhile (fun x => x < b)) T := by
  intro R
  induction R with
  | nil => intro T _; rfl
  | cons x xs ih =>
      intro T hb
      have hbx : b ≠ x := fun h => hb (h ▸ List.mem_cons_self x xs)
      have hbxs : b ∉ xs := fun h => hb (List.mem_cons_of_mem x h)
      rw [mergeNat]
      by_cases hc : b ≤ x
      · have hbltx : b < x := lt_of_le_of_ne hc hbx
        rw [List.takeWhile_cons, if_pos (by simpa using hc),
          List.dropWhile_cons, if_pos (by simpa using hc),
          List.takeWhile_cons, if_neg (by simp; omega),
          List.dropWhile_cons, if_neg (by simp; omega)]
        rw [List.cons_append, List.nil_append, mergeNat]

      · have hxb : x < b := by omega
        rw [List.takeWhile_cons, if_neg (by simpa using hc),
          List.dropWhile_cons, if_neg (by simpa using hc),
          List.takeWhile_cons, if_pos (by simpa using hxb),
          List.dropWhile_cons, if_pos (by simpa using hxb),
          List.nil_append, ih T hbxs, List.cons_append]

/-- The pair version of `mergeNat_cons_right`. -/
theorem mergeSLA_cons_right (b1 : Nat) (y : K) :
    ∀ (R T : List (Nat × K)), b1 ∉ R.map Prod.fst →
      mergeSLA R ((b1, y) :: T) =
        R.takeWhile (fun x => x.1 < b1) ++
          (b1, y) :: mergeSLA (R.dropWhile (fun x => x.1 < b1)) T := by
  intro R
  induction R with
  | nil => intro T _; rfl
  | cons x xs ih =>
      intro T hb
      have hbx : b1 ≠ x.1 := fun h => hb (by
        rw [List.map_cons, h]
        exact List.mem_cons_self x.1 (xs.map Prod.fst))
      have hbxs : b1 ∉ xs.map Prod.fst := fun h =>
        hb (by rw [List.map_cons]; exact List.mem_cons_of_mem x.1 h)
      rw [mergeSLA]
      by_cases hc : b1 ≤ x.1
      · have hbltx : b1 < x.1 := lt_of_le_of_ne hc hbx
        rw [List.takeWhile_cons, if_pos (by simpa using hc),
          List.dropWhile_cons, if_pos (by simpa using hc),
          List.takeWhile_cons, if_neg (by simp; omega),
          List.dropWhile_cons, if_neg (by simp; omega)]
        rw [List.cons_append, List.nil_append, mergeSLA]

      · have hxb : x.1 < b1 := by omega
        rw [List.takeWhile_cons, if_neg (by simpa using hc),
          List.dropWhile_cons, if_neg (by simpa using hc),
          List.takeWhile_cons, if_pos (by simpa using hxb),
          List.dropWhile_cons, if_pos (by simpa using hxb),
          List.nil_append, ih T hbxs, List.cons_append]

/-- A prefix of the first run that beats every second-run element passes
through the merge untouched (index version). -/
theorem mergeNat_append_left (T : List Nat) :
    ∀ (P R : List Nat), (∀ y ∈ T, ∀ p ∈ P, ¬ y ≤ p) →
      mergeNat (P ++ R) T = P ++ mergeNat R T := by
  intro P
  induction P with
  | nil => intro R _; rfl
  | cons p P ih =>
      intro R h
      have hT : ∀ y ∈ T, ¬ y ≤ p :=
        fun y hy => h y hy p (List.mem_cons_self p P)
      have hP : ∀ y ∈ T, ∀ q ∈ P, ¬ y ≤ q :=
        fun y hy q hq => h y hy q (List.mem_cons_of_mem p hq)
      rw [List.cons_append, mergeNat,
        takeWhile_eq_nil_of_none _ _ (fun y hy => by
          simpa using hT y hy),
        dropWhile_eq_self_of_none _ _ (fun y hy => by
          simpa using hT y hy),
        List.nil_append, ih R hP, List.cons_append]

/-- The pair version of `mergeNat_append_left`. -/
theorem mergeSLA_append_left (T : List (Nat × K)) :
    ∀ (P R : List (Nat × K)), (∀ y ∈ T, ∀ p ∈ P, ¬ y.1 ≤ p.1) →
      mergeSLA (P ++ R) T = P ++ mergeSLA R T := by
  intro P
  induction P with
  | nil => intro R _; rfl
  | cons p P ih =>
      intro R h
      have hT : ∀ y ∈ T, ¬ y.1 ≤ p.1 :=
        fun y hy => h y hy p (List.mem_cons_self p P)
      have hP : ∀ y ∈ T, ∀ q ∈ P, ¬ y.1 ≤ q.1 :=
        fun y hy q hq => h y hy q (List.mem_cons_of_mem p hq)
      rw [List.cons_append, mergeSLA,
        takeWhile_eq_nil_of_none _ _ (fun y hy => by
          simpa using hT y hy),
        dropWhile_eq_self_of_none _ _ (fun y hy => by
          simpa using hT y hy),
        List.nil_append, ih R hP, List.cons_append]

/-- Distinct naturals above `a`, counted below `b`, never reach from `a` up
to `b`. -/
theorem add_countP_lt (S : List Nat) (hnd : S.Nodup) (a b : Nat)
    (hab : a < b) (hgt : ∀ x ∈ S, a < x) :
    a + S.countP (fun x => x < b) < b := by
  have hfil : (S.filter (fun x => x < b)).length ≤ b - a - 1 :=
    length_le_of_nodup_bounds _ a b (hnd.filter _)
      (fun x hx => ⟨hgt x (List.mem_of_mem_filter hx), by
        simpa using List.of_mem_filter hx⟩)
  rw [List.countP_eq_length_filter]
  omega

/-- On a strictly ascending run, the prefix below `b` has exactly as many
elements as the count below `b`. -/
theorem length_takeWhile_sorted (R : List Nat) (b : Nat)
    (hs : R.Pairwise (fun x y => x < y)) :
    (R.takeWhile (fun x => x < b)).length = R.countP (fun x => x < b) := by
  induction R with
  | nil => rfl
  | cons r R ih =>
      rcases List.pairwise_cons.mp hs with ⟨hr, hR⟩
      by_cases h : r < b
      · rw [List.takeWhile_cons, if_pos (by simpa using h),
          List.countP_cons, if_pos (by simpa using h), List.length_cons,
          ih hR]
      · have hz : R.countP (fun x => x < b) = 0 :=
          List.countP_eq_zero.mpr (fun x hx => by
            simp only [decide_eq_true_eq]
            have := hr x hx
            omega)
        rw [List.takeWhile_cons, if_neg (by simpa using h),
          List.countP_cons, if_neg (by simpa using h), hz]
        rfl

/-- `bump` never moves an index down. -/
theorem bump_ge (R : List Nat) : ∀ s : Nat, s ≤ bump R s := by
  induction R with
  | nil => intro s; exact le_refl s
  | cons r R ih =>
      intro s
      rw [bump]
      by_cases h : r ≤ s
      · rw [if_pos h]
        exact le_trans (Nat.le_succ s) (ih (s + 1))
      · rw [if_neg h]

/-- A bumped index never lands on a removed index (strictly ascending
removals). -/
theorem bump_notmem (R : List Nat) (hs : R.Pairwise (fun x y => x < y)) :
    ∀ s : Nat, bump R s ∉ R := by
  induction R with
  | nil => intro s h; cases h
  | cons r R ih =>
      rcases List.pairwise_cons.mp hs with ⟨hr, hR⟩
      intro s
      rw [bump]
      by_cases h : r ≤ s
      · rw [if_pos h]
        intro hmem
        rcases List.mem_cons.mp hmem with he | hm
        · have := bump_ge R (s + 1)
          omega
        · exact ih hR (s + 1) hm
      · rw [if_neg h]
        intro hmem
        rcases List.mem_cons.mp hmem with he | hm
        · omega
        · have := hr s hm
          omega

/-- The number of removed indexes below a bumped index is exactly the bump
distance. -/
theorem bump_count (R : List Nat) (hs : R.Pairwise (fun x y => x < y)) :
    ∀ s : Nat, R.countP (fun x => x < bump R s) = bump R s - s := by
  induction R with
  | nil => intro s; simp [bump]
  | cons r R ih =>
      rcases List.pairwise_cons.mp hs with ⟨hr, hR⟩
      intro s
      rw [bump]
      by_cases h : r ≤ s
      · rw [if_pos h]
        have hge := bump_ge R (s + 1)
        rw [List.countP_cons, ih hR (s + 1),
          if_pos (show decide (r < bump R (s + 1)) = true by
            simp only [decide_eq_true_eq]; omega)]
        omega
      · rw [if_neg h]
        have hz : (r :: R).countP (fun x => x < s) = 0 :=
          List.countP_eq_zero.mpr (fun x hx => by
            simp only [decide_eq_true_eq]
            rcases List.mem_cons.mp hx with he | hm
            · omega
            · have := hr x hm
              omega)
        rw [hz]
        omega

/-- `bump` is strictly monotone for strictly ascending removals. -/
theorem bump_strictMono (R : List Nat) (hs : R.Pairwise (fun x y => x < y)) :
    ∀ s t : Nat, s < t → bump R s < bump R t := by
  induction R with
  | nil => intro s t h; exact h
  | cons r R ih =>
      have hR := (List.pairwise_cons.mp hs).2
      intro s t h
      rw [bump, bump]
      by_cases h1 : r ≤ s
      · rw [if_pos h1, if_pos (le_trans h1 (le_of_lt h))]
        exact ih hR (s + 1) (t + 1) (by omega)
      · by_cases h2 : r ≤ t
        · rw [if_neg h1, if_pos h2]
          have := bump_ge R (t + 1)
          omega
        · rw [if_neg h1, if_neg h2]
          exact h

/-- Distinct naturals counted below `a` number at most `a`. -/
theorem countP_lt_le_self (S : List Nat) (hnd : S.Nodup) (a : Nat) :
    S.countP (fun x => x < a) ≤ a := by
  rw [List.countP_eq_length_filter]
  have hsub : (S.filter (fun x => x < a)).toFinset ⊆ Finset.range a :=
    fun x hx => Finset.mem_range.mpr (by
      simpa using List.of_mem_filter (List.mem_toFinset.mp hx))
  calc (S.filter (fun x => x < a)).length
      = (S.filter (fun x => x < a)).toFinset.card :=
        (List.toFinset_card_of_nodup (hnd.filter _)).symm
    _ ≤ (Finset.range a).card := Finset.card_le_card hsub
    _ = a := Finset.card_range a

/-- Counting below `a'` splits into counting below `a` and counting inside
`(a, a')`, when `a` itself is absent. -/
theorem countP_lt_split (S : List Nat) (a a' : Nat) (h : a ∉ S) :
    S.countP (fun x => x < a') ≤
      S.countP (fun x => x < a) +
        S.countP (fun x => a < x && x < a') := by
  induction S with
  | nil => exact le_refl _
  | cons s S ih =>
      have hsa : s ≠ a := fun he => h (he ▸ List.mem_cons_self s S)
      have ihs := ih (fun hm => h (List.mem_cons_of_mem s hm))
      simp only [List.countP_cons]
      by_cases h2 : s < a
      · by_cases h1 : s < a'
        · rw [if_pos (by simp only [decide_eq_true_eq]; omega),
            if_pos (by simp only [decide_eq_true_eq]; omega),
            if_neg (by simp only [Bool.and_eq_true, decide_eq_true_eq]; omega)]
          omega
        · rw [if_neg (by simp only [decide_eq_true_eq]; omega),
            if_pos (by simp only [decide_eq_true_eq]; omega),
            if_neg (by simp only [Bool.and_eq_true, decide_eq_true_eq]; omega)]
          omega
      · by_cases h1 : s < a'
        · rw [if_pos (by simp only [decide_eq_true_eq]; omega),
            if_neg (by simp only [decide_eq_true_eq]; omega),
            if_pos (by simp only [Bool.and_eq_true, decide_eq_true_eq]; omega)]
          omega
        · rw [if_neg (by simp only [decide_eq_true_eq]; omega),
            if_neg (by simp only [decide_eq_true_eq]; omega),
            if_neg (by simp only [Bool.and_eq_true, decide_eq_true_eq]; omega)]
          omega

/-- Subtracting the count of smaller removals is strictly monotone off the
removal set. -/
theorem sub_countP_strictMono (S : List Nat) (hnd : S.Nodup) (a a' : Nat)
    (h : a < a') (ha : a ∉ S) :
    a - S.countP (fun x => x < a) < a' - S.countP (fun x => x < a') := by
  have hsplit := countP_lt_split S a a' ha
  have hba : S.countP (fun x => x < a) ≤ a := countP_lt_le_self S hnd a
  have hmid : S.countP (fun x => a < x && x < a') ≤ a' - a - 1 := by
    rw [List.countP_eq_length_filter]
    exact length_le_of_nodup_bounds _ a a' (hnd.filter _)
      (fun x hx => by
        have := List.of_mem_filter hx
        simp only [Bool.and_eq_true, decide_eq_true_eq] at this
        exact this)
  omega

/-- `zip` of the two projections of a pair list recovers the list. -/
theorem zip_map_fst_snd_self {α β : Type} (l : List (α × β)) :
    (l.map Prod.fst).zip (l.map Prod.snd) = l := by
  induction l with
  | nil => rfl
  | cons x l ih => simp [ih]

/-- Pulling one insertion out from the middle of an ascending batch: the
insertions below it slide it down by their number. -/
theorem applyAdditions_middle (i : Nat) (y : K) :
    ∀ (P Q : List (Nat × K)) (M : List (Option K)),
      (P.map Prod.fst).Pairwise (fun a b => a < b) →
      (∀ p ∈ P, p.1 < i) →
      applyAdditions (P ++ (i, y) :: Q) M =
        applyAdditions (P ++ Q) (insertAt (i - P.length) y M) := by
  intro P
  induction P with
  | nil =>
      intro Q M _ _
      simp only [List.nil_append, applyAdditions, List.length_nil,
        Nat.sub_zero]
  | cons p P ih =>
      intro Q M hasc hlt
      rcases p with ⟨a, x⟩
      simp only [List.map_cons] at hasc
      rcases List.pairwise_cons.mp hasc with ⟨haP, hP⟩
      have hltP : ∀ q ∈ P, q.1 < i :=
        fun q hq => hlt q (List.mem_cons_of_mem _ hq)
      have hcard : P.length ≤ i - a - 1 := by
        have := length_le_of_nodup_bounds (P.map Prod.fst) a i
          hP.nodup (fun v hv => by
            rcases List.mem_map.mp hv with ⟨q, hq, rfl⟩
            exact ⟨haP q.1 (List.mem_map_of_mem Prod.fst hq), hltP q hq⟩)
        simpa using this
      have hai : a < i := hlt (a, x) (List.mem_cons_self _ _)
      have hasw : a < i - P.length := by omega
      simp only [List.cons_append, applyAdditions, List.length_cons,
        List.append_eq]
      rw [ih Q (insertAt a x M) hP hltP,
        insertAt_insertAt a (i - P.length) hasw x y M, Nat.sub_sub]

/-- Erasing one index commutes past a whole ascending insertion batch that
misses it: insertions above slide down one, the erase index slides down by
the number of insertions below it. -/
theorem eraseIdx_applyAdditions (j : Nat) :
    ∀ (Q : List (Nat × K)) (N : List (Option K)),
      (Q.map Prod.fst).Pairwise (fun a b => a < b) →
      j ∉ Q.map Prod.fst →
      (applyAdditions Q N).eraseIdx j =
        applyAdditions
          (Q.map (fun p => (if j < p.1 then p.1 - 1 else p.1, p.2)))
          (N.eraseIdx (j - (Q.map Prod.fst).countP (fun x => x < j))) := by
  intro Q
  induction Q with
  | nil =>
      intro N _ _
      simp only [applyAdditions, List.map_nil, List.countP_nil,
        Nat.sub_zero]
  | cons q Q ih =>
      intro N hasc hnot
      rcases q with ⟨a, x⟩
      simp only [List.map_cons] at hasc hnot
      rcases List.pairwise_cons.mp hasc with ⟨haQ, hQ⟩
      have hja : j ≠ a := fun he => hnot (he ▸ List.mem_cons_self _ _)
      have hnotQ : j ∉ Q.map Prod.fst :=
        fun hm => hnot (List.mem_cons_of_mem _ hm)
      by_cases hc : a < j
      · have hcnt : a + (Q.map Prod.fst).countP (fun x => x < j) < j :=
          add_countP_lt (Q.map Prod.fst) hQ.nodup a j hc haQ
        simp only [applyAdditions, List.map_cons]
        rw [ih (insertAt a x N) hQ hnotQ,
          eraseIdx_insertAt_gt a
            (j - (Q.map Prod.fst).countP (fun x => x < j)) (by omega) x N,
          List.countP_cons,
          if_pos (show decide (a < j) = true by
            simp only [decide_eq_true_eq]; exact hc),
          if_neg (show ¬ j < a by omega)]
        have harith :
            j - (Q.map Prod.fst).countP (fun x => x < j) - 1 =
              j - ((Q.map Prod.fst).countP (fun x => x < j) + 1) := by
          omega
        rw [harith]
      · have hz : (Q.map Prod.fst).countP (fun x => x < j) = 0 :=
          List.countP_eq_zero.mpr (fun v hv => by
            simp only [decide_eq_true_eq]
            have := haQ v hv
            omega)
        have haj : j < a := by omega
        simp only [applyAdditions, List.map_cons]
        rw [ih (insertAt a x N) hQ hnotQ, hz, Nat.sub_zero,
          eraseIdx_insertAt_lt j a haj x N,
          List.countP_cons,
          if_neg (show ¬ decide (a < j) = true by
            simp only [decide_eq_true_eq]; omega),
          if_pos haj, Nat.add_zero, hz, Nat.sub_zero]

/-- Erasing above an ascending batch of smaller removals commutes, the
erase index dropping by the batch size. -/
theorem applyRemovals_eraseIdx_big (b : Nat) :
    ∀ (P : List Nat) (N : List (Option K)),
      P.Pairwise (fun x y => x < y) →
      (∀ p ∈ P, p < b) →
      applyRemovals P (N.eraseIdx b) =
        (applyRemovals P N).eraseIdx (b - P.length) := by
  intro P
  induction P with
  | nil =>
      intro N _ _
      simp only [applyRemovals, List.foldr_nil, List.length_nil,
        Nat.sub_zero]
  | cons p P ih =>
      intro N hasc hlt
      rcases List.pairwise_cons.mp hasc with ⟨hpP, hP⟩
      have hltP : ∀ q ∈ P, q < b :=
        fun q hq => hlt q (List.mem_cons_of_mem _ hq)
      have hcard : P.length ≤ b - p - 1 :=
        length_le_of_nodup_bounds P p b hP.nodup
          (fun v hv => ⟨hpP v hv, hltP v hv⟩)
      have hpb : p < b := hlt p (List.mem_cons_self _ _)
      have hpsw : p < b - P.length := by omega
      rw [applyRemovals_cons, applyRemovals_cons, ih N hP hltP,
        eraseIdx_eraseIdx p (b - P.length) hpsw, List.length_cons,
        Nat.sub_sub]

/-- Fusing two removal batches: the later batch, bumped past the earlier
one, merges into a single removal batch on the original list. -/
theorem applyRemovals_applyRemovals (S : List Nat) :
    ∀ (R : List Nat) (L : List (Option K)),
      R.Pairwise (fun x y => x < y) →
      S.Pairwise (fun x y => x < y) →
      applyRemovals S (applyRemovals R L) =
        applyRemovals (mergeNat R (S.map (bump R))) L := by
  induction S with
  | nil =>
      intro R L _ _
      rw [List.map_nil, mergeNat_nil]
      rfl
  | cons s S ih =>
      intro R L hR hS
      rcases List.pairwise_cons.mp hS with ⟨hsS, hS'⟩
      have hb := bump_notmem R hR s
      have hbc := bump_count R hR s
      have hge := bump_ge R s
      have hP : (R.takeWhile (fun x => x < bump R s)).Pairwise
          (fun x y => x < y) := List.Pairwise.sublist (List.takeWhile_sublist _) hR
      have hPlt : ∀ p ∈ R.takeWhile (fun x => x < bump R s),
          p < bump R s := fun p hp => by
        have := List.mem_takeWhile_imp hp
        simpa using this
      have hcond : ∀ v ∈ S.map (bump R),
          ∀ p ∈ R.takeWhile (fun x => x < bump R s), ¬ v ≤ p := by
        intro v hv p hp
        rcases List.mem_map.mp hv with ⟨t, ht, rfl⟩
        have h1 : bump R s < bump R t :=
          bump_strictMono R hR s t (hsS t ht)
        have h2 := hPlt p hp
        omega
      have hsplit := mergeNat_append_left (S.map (bump R))
        (R.takeWhile (fun x => x < bump R s))
        (R.dropWhile (fun x => x < bump R s)) hcond
      rw [List.takeWhile_append_dropWhile] at hsplit
      rw [applyRemovals_cons, ih R L hR hS', List.map_cons,
        mergeNat_cons_right (bump R s) R _ hb, hsplit,
        applyRemovals_append, applyRemovals_append, applyRemovals_cons,
        applyRemovals_eraseIdx_big (bump R s)
          (R.takeWhile (fun x => x < bump R s)) _ hP hPlt,
        length_takeWhile_sorted R (bump R s) hR, hbc]
      have harith : bump R s - (bump R s - s) = s := by omega
      rw [harith]

/-- Fusing two insertion batches: the earlier batch, bumped past the later
one, merges into a single insertion batch on the original list. -/
theorem applyAdditions_applyAdditions (B : List (Nat × K)) :
    ∀ (A : List (Nat × K)) (M : List (Option K)),
      (A.map Prod.fst).Pairwise (fun x y => x < y) →
      (B.map Prod.fst).Pairwise (fun x y => x < y) →
      applyAdditions A (applyAdditions B M) =
        applyAdditions
          (mergeSLA A
            (B.map (fun p => (bump (A.map Prod.fst) p.1, p.2)))) M := by
  induction B with
  | nil =>
      intro A M _ _
      rw [List.map_nil, mergeSLA_nil]
      rfl
  | cons b B ih =>
      intro A M hA hB
      rcases b with ⟨b0, y⟩
      simp only [List.map_cons] at hB
      rcases List.pairwise_cons.mp hB with ⟨hbB, hB'⟩
      have hb := bump_notmem (A.map Prod.fst) hA b0
      have hbc := bump_count (A.map Prod.fst) hA b0
      have hge := bump_ge (A.map Prod.fst) b0
      have hPfst : ((A.takeWhile
            (fun x => x.1 < bump (A.map Prod.fst) b0)).map
              Prod.fst).Pairwise (fun x y => x < y) :=
        List.Pairwise.sublist ((List.takeWhile_sublist _).map Prod.fst) hA
      have hPlt : ∀ p ∈ A.takeWhile
            (fun x => x.1 < bump (A.map Prod.fst) b0),
          p.1 < bump (A.map Prod.fst) b0 := fun p hp => by
        have := List.mem_takeWhile_imp hp
        simpa using this
      have hcond :
          ∀ v ∈ B.map (fun p => (bump (A.map Prod.fst) p.1, p.2)),
            ∀ p ∈ A.takeWhile
              (fun x => x.1 < bump (A.map Prod.fst) b0),
              ¬ v.1 ≤ p.1 := by
        intro v hv p hp
        rcases List.mem_map.mp hv with ⟨t, ht, rfl⟩
        have h1 : bump (A.map Prod.fst) b0 < bump (A.map Prod.fst) t.1 :=
          bump_strictMono (A.map Prod.fst) hA b0 t.1
            (hbB t.1 (List.mem_map_of_mem Prod.fst ht))
        have h2 := hPlt p hp
        simpa using (by omega : ¬ bump (A.map Prod.fst) t.1 ≤ p.1)
      have hsplit := mergeSLA_append_left
        (B.map (fun p => (bump (A.map Prod.fst) p.1, p.2)))
        (A.takeWhile (fun x => x.1 < bump (A.map Prod.fst) b0))
        (A.dropWhile (fun x => x.1 < bump (A.map Prod.fst) b0)) hcond
      rw [List.takeWhile_append_dropWhile] at hsplit
      have hlenP :
          (A.takeWhile (fun x => x.1 < bump (A.map Prod.fst) b0)).length =
            (A.map Prod.fst).countP
              (fun x => x < bump (A.map Prod.fst) b0) := by
        rw [← length_takeWhile_sorted (A.map Prod.fst) _ hA,
          List.takeWhile_map, List.length_map]
        rfl
      rw [applyAdditions, ih A (insertAt b0 y M) hA hB']
      simp only [List.map_cons]
      rw [mergeSLA_cons_right (bump (A.map Prod.fst) b0) y A _ hb, hsplit,
        applyAdditions_middle (bump (A.map Prod.fst) b0) y
          (A.takeWhile (fun x => x.1 < bump (A.map Prod.fst) b0)) _ M
          hPfst hPlt,
        hlenP, hbc]
      have harith :
          bump (A.map Prod.fst) b0 - (bump (A.map Prod.fst) b0 - b0) =
            b0 := by omega
      rw [harith]

/-- A map that is strictly monotone on the members of a strictly ascending
run keeps it strictly ascending. -/
theorem pairwise_lt_map_of_strictMonoOn (f : Nat → Nat) :
    ∀ l : List Nat, l.Pairwise (fun x y => x < y) →
      (∀ a ∈ l, ∀ b ∈ l, a < b → f a < f b) →
      (l.map f).Pairwise (fun x y => x < y) := by
  intro l
  induction l with
  | nil => intro _ _; exact List.Pairwise.nil
  | cons a l ih =>
      intro hp hm
      rcases List.pairwise_cons.mp hp with ⟨hal, hl⟩
      rw [List.map_cons]
      refine List.pairwise_cons.mpr ⟨?_, ?_⟩
      · intro v hv
        rcases List.mem_map.mp hv with ⟨b, hb, rfl⟩
        exact hm a (List.mem_cons_self a l) b (List.mem_cons_of_mem a hb)
          (hal b hb)
      · exact ih hl (fun x hx y hy h =>
          hm x (List.mem_cons_of_mem a hx) y (List.mem_cons_of_mem a hy) h)

/-- Pulling an ascending batch of removals (all missing the insertion
points) past an ascending insertion batch: the insertions move down by the
count of earlier removals, the removals move down by the count of earlier
insertions. -/
theorem applyRemovals_applyAdditions (R2 : List Nat) :
    ∀ (P : List (Nat × K)) (M : List (Option K)),
      (P.map Prod.fst).Pairwise (fun x y => x < y) →
      R2.Pairwise (fun x y => x < y) →
      (∀ a ∈ P.map Prod.fst, a ∉ R2) →
      applyRemovals R2 (applyAdditions P M) =
        applyAdditions
          (P.map (fun p => (p.1 - R2.countP (fun x => x < p.1), p.2)))
          (applyRemovals
            (R2.map (fun r =>
              r - (P.map Prod.fst).countP (fun x => x < r))) M) := by
  induction R2 with
  | nil =>
      intro P M _ _ _
      simp only [List.countP_nil, Nat.sub_zero, Prod.mk.eta, List.map_id',
        List.map_nil]
      rfl
  | cons r R2 ih =>
      intro P M hP hR2 hdisj
      rcases List.pairwise_cons.mp hR2 with ⟨hrR2, hR2'⟩
      have hdisj' : ∀ a ∈ P.map Prod.fst, a ∉ R2 :=
        fun a ha hm => hdisj a ha (List.mem_cons_of_mem r hm)
      have hrP : r ∉ P.map Prod.fst :=
        fun hm => hdisj r hm (List.mem_cons_self r R2)
      have hflow : ∀ a ∈ P.map Prod.fst, a < r →
          R2.countP (fun x => x < a) = 0 := by
        intro a _ har
        exact List.countP_eq_zero.mpr (fun x hx => by
          simp only [decide_eq_true_eq]
          have := hrR2 x hx
          omega)
      have hfhigh : ∀ a ∈ P.map Prod.fst, r < a →
          r < a - R2.countP (fun x => x < a) := by
        intro a _ hra
        have := add_countP_lt R2 hR2'.nodup r a hra hrR2
        omega
      have hmapfst : (P.map (fun p =>
          (p.1 - R2.countP (fun x => x < p.1), p.2))).map Prod.fst =
            (P.map Prod.fst).map
              (fun v => v - R2.countP (fun x => x < v)) := by
        rw [List.map_map, List.map_map]
        rfl
      have hP' : ((P.map (fun p =>
            (p.1 - R2.countP (fun x => x < p.1), p.2))).map
              Prod.fst).Pairwise (fun x y => x < y) := by
        rw [hmapfst]
        exact pairwise_lt_map_of_strictMonoOn _ _ hP
          (fun a ha b hb hab =>
            sub_countP_strictMono R2 hR2'.nodup a b hab (hdisj' a ha))
      have hrP' : r ∉ (P.map (fun p =>
          (p.1 - R2.countP (fun x => x < p.1), p.2))).map Prod.fst := by
        rw [hmapfst]
        intro hm
        rcases List.mem_map.mp hm with ⟨a, ha, he⟩
        have he' : a - R2.countP (fun x => x < a) = r := he
        have har : a ≠ r := fun hh => hrP (hh ▸ ha)
        rcases lt_or_gt_of_ne har with hlt | hgt
        · have h0 := hflow a ha hlt
          omega
        · have h1 := hfhigh a ha hgt
          omega
      have hmapeq : ((P.map (fun p =>
            (p.1 - R2.countP (fun x => x < p.1), p.2))).map
              (fun p => (if r < p.1 then p.1 - 1 else p.1, p.2))) =
          P.map (fun p =>
            (p.1 - (r :: R2).countP (fun x => x < p.1), p.2)) := by
        rw [List.map_map]
        refine List.map_congr_left (fun q hq => ?_)
        have hqfst : q.1 ∈ P.map Prod.fst := List.mem_map_of_mem Prod.fst hq
        have hqr : q.1 ≠ r := fun hh => hrP (hh ▸ hqfst)
        simp only [Function.comp, List.countP_cons]
        rcases lt_or_gt_of_ne hqr with hlt | hgt
        · have h0 := hflow q.1 hqfst hlt
          rw [if_neg (show ¬ r < q.1 - R2.countP
              (fun x => x < q.1) by omega),
            if_neg (show ¬ decide (r < q.1) = true by
              simp only [decide_eq_true_eq]; omega),
            Nat.add_zero]
        · have h1 := hfhigh q.1 hqfst hgt
          have h2 := add_countP_lt R2 hR2'.nodup r q.1 hgt hrR2
          rw [if_pos (show r < q.1 - R2.countP
              (fun x => x < q.1) from h1),
            if_pos (show decide (r < q.1) = true by
              simp only [decide_eq_true_eq]; omega)]
          have harith : q.1 - R2.countP (fun x => x < q.1) - 1 =
              q.1 - (R2.countP (fun x => x < q.1) + 1) := by omega
          rw [harith]
      have hident : ((P.map (fun p =>
            (p.1 - R2.countP (fun x => x < p.1), p.2))).map
              Prod.fst).countP (fun x => x < r) =
          (P.map Prod.fst).countP (fun x => x < r) := by
        rw [hmapfst, List.countP_map]
        refine List.countP_congr (fun a ha => ?_)
        have har : a ≠ r := fun hh =>
          hdisj a ha (hh ▸ List.mem_cons_self r R2)
        simp only [Function.comp, decide_eq_true_eq]
        constructor
        · intro h'
          by_contra hge
          have hgt : r < a := by omega
          have := hfhigh a ha hgt
          omega
        · intro h'
          have h0 := hflow a ha h'
          omega
      rw [applyRemovals_cons, ih P M hP hR2' hdisj',
        eraseIdx_applyAdditions r _ _ hP' hrP']
      simp only [List.map_cons]
      rw [applyRemovals_cons, hmapeq, hident]

/-- `applyUpdateToList` with no truncation marker is remove-then-insert. -/
theorem applyUpdateToList_no_trunc (u : Update K) (L : List (Option K))
    (ht : u.truncateAtFirstGap = false) :
    applyUpdateToList u L =
      applyAdditions (u.addedIndexes.zip u.addedStoreKeys)
        (applyRemovals u.removedIndexes L) := by
  unfold applyUpdateToList
  dsimp only
  rw [ht]
  simp only [Bool.false_eq_true, if_false]

/-- When no removed index hits an added index, the `adjustIndexes` loop
cancels nothing: every pair is translated by subtracting earlier additions
and bumping past earlier removals. -/
theorem adjustIndexesLoop_no_cancel (added removedBefore : List Nat) :
    ∀ pairs : List (Nat × K), (∀ p ∈ pairs, p.1 ∉ added) →
      adjustIndexesLoop added removedBefore pairs =
        pairs.map (fun p =>
          (bump removedBefore (p.1 - binarySearch added p.1), p.2)) := by
  intro pairs
  induction pairs with
  | nil => intro _; rfl
  | cons p rest ih =>
      intro h
      rcases p with ⟨index, storeKey⟩
      rw [adjustIndexesLoop]
      rw [if_neg (fun hc => h (index, storeKey) (List.mem_cons_self _ _)
        (List.getElem?_mem hc))]
      rw [ih (fun q hq => h q (List.mem_cons_of_mem _ hq)), List.map_cons]

/-- C4.  Compose/apply homomorphism: for every list `L` and every pair of
canonically-shaped, non-overlapping preemptive updates `p1`, `p2` (each
with strictly ascending index runs linked one-to-one to their key runs and
no truncation marker, `p2` expressed relative to the list produced by
`p1`, and no index removed by `p2` equal to an index added by `p1`),
applying the single composed update `composeUpdates p1 p2` to `L` produces
the same list as applying `p1` to `L` and then `p2` to the result. -/
theorem C4_compose_apply_homomorphism (p1 p2 : Update K)
    (L : List (Option K))
    (h1R : p1.removedIndexes.Pairwise (fun x y => x < y))
    (h1A : p1.addedIndexes.Pairwise (fun x y => x < y))
    (h2R : p2.removedIndexes.Pairwise (fun x y => x < y))
    (h2A : p2.addedIndexes.Pairwise (fun x y => x < y))
    (h1lenR : p1.removedIndexes.length = p1.removedStoreKeys.length)
    (h1lenA : p1.addedIndexes.length = p1.addedStoreKeys.length)
    (h2lenR : p2.removedIndexes.length = p2.removedStoreKeys.length)
    (h2lenA : p2.addedIndexes.length = p2.addedStoreKeys.length)
    (h1t : p1.truncateAtFirstGap = false)
    (h2t : p2.truncateAtFirstGap = false)
    (hdisj : ∀ a ∈ p1.addedIndexes, a ∉ p2.removedIndexes) :
    applyUpdateToList (composeUpdates p1 p2) L =
      applyUpdateToList p2 (applyUpdateToList p1 L) := by
  have hfst1A : (p1.addedIndexes.zip p1.addedStoreKeys).map Prod.fst =
      p1.addedIndexes := List.map_fst_zip _ _ (le_of_eq h1lenA)
  have hfst2A : (p2.addedIndexes.zip p2.addedStoreKeys).map Prod.fst =
      p2.addedIndexes := List.map_fst_zip _ _ (le_of_eq h2lenA)
  have hfst1R : (p1.removedIndexes.zip p1.removedStoreKeys).map Prod.fst =
      p1.removedIndexes := List.map_fst_zip _ _ (le_of_eq h1lenR)
  have hfst2R : (p2.removedIndexes.zip p2.removedStoreKeys).map Prod.fst =
      p2.removedIndexes := List.map_fst_zip _ _ (le_of_eq h2lenR)
  have hback : adjustIndexesLoop p1.addedIndexes p1.removedIndexes
      (p2.removedIndexes.zip p2.removedStoreKeys) =
        (p2.removedIndexes.zip p2.removedStoreKeys).map (fun p =>
          (bump p1.removedIndexes
            (p.1 - p1.addedIndexes.countP (fun x => x < p.1)), p.2)) := by
    rw [adjustIndexesLoop_no_cancel _ _ _
      (fun p hp hmem => hdisj p.1 hmem (List.of_mem_zip hp).1)]
    rfl
  have hfwd : adjustIndexesLoop p2.removedIndexes p2.addedIndexes
      (p1.addedIndexes.zip p1.addedStoreKeys) =
        (p1.addedIndexes.zip p1.addedStoreKeys).map (fun p =>
          (bump p2.addedIndexes
            (p.1 - p2.removedIndexes.countP (fun x => x < p.1)), p.2)) := by
    rw [adjustIndexesLoop_no_cancel _ _ _
      (fun p hp => hdisj p.1 (List.of_mem_zip hp).1)]
    rfl
  have hcomp : composeUpdates p1 p2 =
      { removedIndexes :=
          (mergeSLA (p1.removedIndexes.zip p1.removedStoreKeys)
            ((p2.removedIndexes.zip p2.removedStoreKeys).map (fun p =>
              (bump p1.removedIndexes
                (p.1 - p1.addedIndexes.countP (fun x => x < p.1)),
                p.2)))).map Prod.fst
        removedStoreKeys :=
          (mergeSLA (p1.removedIndexes.zip p1.removedStoreKeys)
            ((p2.removedIndexes.zip p2.removedStoreKeys).map (fun p =>
              (bump p1.removedIndexes
                (p.1 - p1.addedIndexes.countP (fun x => x < p.1)),
                p.2)))).map Prod.snd
        addedIndexes :=
          (mergeSLA (p2.addedIndexes.zip p2.addedStoreKeys)
            ((p1.addedIndexes.zip p1.addedStoreKeys).map (fun p =>
              (bump p2.addedIndexes
                (p.1 - p2.removedIndexes.countP (fun x => x < p.1)),
                p.2)))).map Prod.fst
        addedStoreKeys :=
          (mergeSLA (p2.addedIndexes.zip p2.addedStoreKeys)
            ((p1.addedIndexes.zip p1.addedStoreKeys).map (fun p =>
              (bump p2.addedIndexes
                (p.1 - p2.removedIndexes.countP (fun x => x < p.1)),
                p.2)))).map Prod.snd
        truncateAtFirstGap :=
          p1.truncateAtFirstGap || p2.truncateAtFirstGap
        total := p2.total
        upto := p2.upto } := by
    unfold composeUpdates adjustIndexes mergeSortedLinkedArrays
    dsimp only
    rw [hback, hfwd, zip_map_fst_snd_self, zip_map_fst_snd_self]
  rw [hcomp, applyUpdateToList_no_trunc _ L (by
    show (p1.truncateAtFirstGap || p2.truncateAtFirstGap) = false
    rw [h1t, h2t]
    rfl),
    applyUpdateToList_no_trunc p1 L h1t,
    applyUpdateToList_no_trunc p2 _ h2t]
  dsimp only
  rw [zip_map_fst_snd_self]
  have hXa : ((p1.addedIndexes.zip p1.addedStoreKeys).map
      Prod.fst).Pairwise (fun x y => x < y) := by
    rw [hfst1A]; exact h1A
  have hXc : ∀ a ∈ (p1.addedIndexes.zip p1.addedStoreKeys).map Prod.fst,
      a ∉ p2.removedIndexes := by
    rw [hfst1A]; exact hdisj
  rw [applyRemovals_applyAdditions p2.removedIndexes
    (p1.addedIndexes.zip p1.addedStoreKeys)
    (applyRemovals p1.removedIndexes L) hXa h2R hXc, hfst1A]
  have hYasc : (p2.removedIndexes.map (fun r =>
      r - p1.addedIndexes.countP (fun x => x < r))).Pairwise
        (fun x y => x < y) :=
    pairwise_lt_map_of_strictMonoOn _ p2.removedIndexes h2R
      (fun a ha b hb hab =>
        sub_countP_strictMono p1.addedIndexes h1A.nodup a b hab
          (fun hmem => hdisj a hmem ha))
  rw [applyRemovals_applyRemovals
    (p2.removedIndexes.map (fun r =>
      r - p1.addedIndexes.countP (fun x => x < r)))
    p1.removedIndexes L h1R hYasc]
  have hZA : ((p2.addedIndexes.zip p2.addedStoreKeys).map
      Prod.fst).Pairwise (fun x y => x < y) := by
    rw [hfst2A]; exact h2A
  have hmf : (((p1.addedIndexes.zip p1.addedStoreKeys).map (fun p =>
      (p.1 - p2.removedIndexes.countP (fun x => x < p.1), p.2))).map
        Prod.fst) =
      ((p1.addedIndexes.zip p1.addedStoreKeys).map Prod.fst).map (fun v =>
        v - p2.removedIndexes.countP (fun x => x < v)) := by
    rw [List.map_map, List.map_map]
    rfl
  have hZB : (((p1.addedIndexes.zip p1.addedStoreKeys).map (fun p =>
      (p.1 - p2.removedIndexes.countP (fun x => x < p.1), p.2))).map
        Prod.fst).Pairwise (fun x y => x < y) := by
    rw [hmf, hfst1A]
    exact pairwise_lt_map_of_strictMonoOn _ p1.addedIndexes h1A
      (fun a ha b hb hab =>
        sub_countP_strictMono p2.removedIndexes h2R.nodup a b hab
          (hdisj a ha))
  rw [applyAdditions_applyAdditions
    ((p1.addedIndexes.zip p1.addedStoreKeys).map (fun p =>
      (p.1 - p2.removedIndexes.countP (fun x => x < p.1), p.2)))
    (p2.addedIndexes.zip p2.addedStoreKeys) _ hZA hZB, hfst2A,
    mergeSLA_map_fst, hfst1R]
  have hbackfst : (((p2.removedIndexes.zip p2.removedStoreKeys).map
      (fun p => (bump p1.removedIndexes
        (p.1 - p1.addedIndexes.countP (fun x => x < p.1)), p.2))).map
          Prod.fst) =
      p2.removedIndexes.map (fun v => bump p1.removedIndexes
        (v - p1.addedIndexes.countP (fun x => x < v))) := by
    rw [List.map_map]
    have hcompfn : (((p2.removedIndexes.zip p2.removedStoreKeys).map
        (Prod.fst ∘ (fun p => (bump p1.removedIndexes
          (p.1 - p1.addedIndexes.countP (fun x => x < p.1)), p.2))))) =
        (((p2.removedIndexes.zip p2.removedStoreKeys).map
          ((fun v => bump p1.removedIndexes
            (v - p1.addedIndexes.countP (fun x => x < v))) ∘
              Prod.fst))) := rfl
    rw [hcompfn, ← List.map_map, hfst2R]
  rw [hbackfst]
  simp only [List.map_map]
  rfl

/-- C4 witness: composing the preemptive update removing `(1, b)` and
adding `(3, x)` with the follow-up update removing `(0, a)` and adding
`(2, y)` on the list `[a,b,c,d,e]`. -/
theorem C4_compose_apply_homomorphism_witness :
    applyUpdateToList
      (composeUpdates
        { removedIndexes := [1], removedStoreKeys := ["b"],
          addedIndexes := [3], addedStoreKeys := ["x"],
          truncateAtFirstGap := false, total := 5, upto := none }
        { removedIndexes := [0], removedStoreKeys := ["a"],
          addedIndexes := [2], addedStoreKeys := ["y"],
          truncateAtFirstGap := false, total := 5, upto := none })
      [some "a", some "b", some "c", some "d", some "e"] =
      applyUpdateToList
        { removedIndexes := [0], removedStoreKeys := ["a"],
          addedIndexes := [2], addedStoreKeys := ["y"],
          truncateAtFirstGap := false, total := 5, upto := none }
        (applyUpdateToList
          { removedIndexes := [1], removedStoreKeys := ["b"],
            addedIndexes := [3], addedStoreKeys := ["x"],
            truncateAtFirstGap := false, total := 5, upto := none }
          [some "a", some "b", some "c", some "d", some "e"]) :=
  C4_compose_apply_homomorphism
    { removedIndexes := [1], removedStoreKeys := ["b"],
      addedIndexes := [3], addedStoreKeys := ["x"],
      truncateAtFirstGap := false, total := 5, upto := none }
    { removedIndexes := [0], removedStoreKeys := ["a"],
      addedIndexes := [2], addedStoreKeys := ["y"],
      truncateAtFirstGap := false, total := 5, upto := none }
    [some "a", some "b", some "c", some "d", some "e"]
    (by decide) (by decide) (by decide) (by decide) (by decide)
    (by decide) (by decide) (by decide) (by decide) (by decide)
    (by decide)

end Homomorphism

end Overture
